import Mathlib

/-!
# Verification of `common/lib/gterm.c`

A shallow embedding of the canvas generation code of the graphical terminal
(`colour_blend`, `blend_gradient_from_box`, `genloop`, `generate_canvas` and the
front part of `gterm_init`) together with theorems about it.

Conventions of the embedding:

* C unsigned integers are natural numbers; every operation that can wrap is
  reduced modulo the width of its C type.  The width of `size_t` is the
  parameter `bits` (32 on the BIOS/ia32 builds, 64 on the x86-64 ones).
* Loops are structural recursions on the number of remaining iterations.
* `genloop` is embedded as the sequence of its inner-loop iterations; the
  canvas is obtained by replaying the stores of that sequence.
-/

namespace Gterm

/-! ## Machine arithmetic -/

/-- Reduction of a natural number to an unsigned C integer of `bits` bits. -/
def wrap (bits n : Nat) : Nat := n % 2 ^ bits

/-- Unsigned subtraction `a - b` on `bits` bits (wraps around when `a < b`). -/
def subw (bits a b : Nat) : Nat := (a % 2 ^ bits + (2 ^ bits - b % 2 ^ bits)) % 2 ^ bits

/-! ## Colours (lines 29-44) -/

/-- The macro `A(rgb)`, that is `(uint8_t)(rgb >> 24)`. -/
def A (rgb : Nat) : Nat := (rgb >>> 24) % 256

/-- The macro `R(rgb)`, that is `(uint8_t)(rgb >> 16)`. -/
def R (rgb : Nat) : Nat := (rgb >>> 16) % 256

/-- The macro `G(rgb)`, that is `(uint8_t)(rgb >> 8)`. -/
def G (rgb : Nat) : Nat := (rgb >>> 8) % 256

/-- The macro `B(rgb)`, that is `(uint8_t)(rgb)`. -/
def B (rgb : Nat) : Nat := rgb % 256

/-- The macro `ARGB(a, r, g, b)`. -/
def ARGB (a r g b : Nat) : Nat :=
  (a <<< 24) ||| ((r &&& 0xFF) <<< 16) ||| ((g &&& 0xFF) <<< 8) ||| (b &&& 0xFF)

/-- The function `colour_blend(fg, bg)`.  The two weights are `unsigned`; the
weighted sums are at most `255 * 256`, far below `2 ^ 32`.  The three channels
are stored in `uint8_t` variables, and the result is a `uint32_t`. -/
def colour_blend (fg bg : Nat) : Nat :=
  let alpha := 255 - A fg
  let inv_alpha := A fg + 1
  let r := ((alpha * R fg + inv_alpha * R bg) / 256) % 256
  let g := ((alpha * G fg + inv_alpha * G bg) / 256) % 256
  let b := ((alpha * B fg + inv_alpha * B bg) / 256) % 256
  (ARGB 0 r g b) % 2 ^ 32

/-! ## The gradient of the margin (lines 46-77) -/

/-- Modelled from the spec: the integer square root `sqrt` of the support
library (its source is not part of `gterm.c`); the spec calls it the "integer
square root on 64-bit intermediate products". -/
def sqrt (n : Nat) : Nat := Nat.sqrt n

/-- The local `distance` of `blend_gradient_from_box` (lines 47-68), a `size_t`.
`fb_w` and `fb_h` stand for `fbinfo.framebuffer_width` and
`fbinfo.framebuffer_height`.  The subtractions are `size_t` subtractions, the
products and the sum under the square root are `uint64_t` operations. -/
def gradient_distance (bits fb_w fb_h margin x y : Nat) : Nat :=
  let gradient_stop_x := subw bits fb_w margin
  let gradient_stop_y := subw bits fb_h margin
  let x_distance := if x < margin then subw bits margin x else subw bits x gradient_stop_x
  let y_distance := if y < margin then subw bits margin y else subw bits y gradient_stop_y
  if margin ≤ x ∧ x < gradient_stop_x then y_distance
  else if margin ≤ y ∧ y < gradient_stop_y then x_distance
  else wrap bits (sqrt (wrap 64 (wrap 64 (x_distance * x_distance)
                                  + wrap 64 (y_distance * y_distance))))

/-- The local `gradient_step` of `blend_gradient_from_box` (line 73), a `uint8_t`. -/
def gradient_step (bits margin_gradient hex : Nat) : Nat :=
  (wrap bits (0xff - A hex) / margin_gradient) % 256

/-- The local `new_alpha` of `blend_gradient_from_box` (line 74), a `uint8_t`. -/
def new_alpha (bits margin_gradient hex distance : Nat) : Nat :=
  (wrap bits (A hex + wrap bits (gradient_step bits margin_gradient hex * distance))) % 256

/-- The function `blend_gradient_from_box(x, y, bg_px, hex)`.  The globals
`fbinfo.framebuffer_width`, `fbinfo.framebuffer_height`, `margin` and
`margin_gradient` are arguments.  The result is `none` where the C code divides
by zero (`margin_gradient = 0` on the blending path). -/
def blend_gradient_from_box (bits fb_w fb_h margin margin_gradient x y bg_px hex : Nat) :
    Option Nat :=
  let distance := gradient_distance bits fb_w fb_h margin x y
  if distance > margin_gradient then some bg_px
  else if margin_gradient = 0 then none
  else
    some (colour_blend
      ((hex &&& 0xffffff) ||| ((new_alpha bits margin_gradient hex distance <<< 24) % 2 ^ 32))
      bg_px)

/-! ## Fixed point numbers (lines 79-81) -/

/-- The function `fixedp6_to_int`. -/
def fixedp6_to_int (value : Nat) : Nat := value / 64

/-- The function `int_to_fixedp6`, a `size_t` multiplication. -/
def int_to_fixedp6 (bits value : Nat) : Nat := wrap bits (value * 64)

/-! ## Images and `genloop` (lines 84-145) -/

/-- The three layouts of a background image. -/
inductive image_type where
  | IMAGE_TILED
  | IMAGE_CENTERED
  | IMAGE_STRETCHED
deriving DecidableEq

/-- Modelled from the spec: the `struct image` of the image library (its
declaration is not part of `gterm.c`), with the fields that `genloop` reads.
`img` gives the 32-bit value read at a byte offset of the pixel buffer. -/
structure image where
  img : Nat → Nat
  type : image_type
  img_width : Nat
  img_height : Nat
  pitch : Nat
  bpp : Nat
  x_size : Nat
  y_size : Nat
  x_displacement : Nat
  y_displacement : Nat
  back_colour : Nat

/-- One iteration of an inner loop of `genloop`: the destination pixel
`(x, y)`, the image read of the iteration (column index and stored row index of
the address `img + column * colsize + pitch * row`; `none` when the iteration
reads nothing), and the value `src` handed to the `blend` callback. -/
structure Iter where
  x : Nat
  y : Nat
  read : Option (Nat × Nat)
  src : Nat
deriving DecidableEq

/-- The value read at `img + column * colsize + off`. -/
def image_read (bits : Nat) (bg : image) (column off : Nat) : Nat :=
  bg.img (wrap bits (wrap bits (column * (bg.bpp / 8)) + off))

/-- The outer loop `for (size_t y = ystart; y < yend; y++)`, with `n` the number
of rows left and `row y` the iterations of the inner loop of row `y`. -/
def for_rows (row : Nat → List Iter) : Nat → Nat → List Iter
  | 0, _ => []
  | n + 1, y => row y ++ for_rows row n (y + 1)

/-- The inner loop of the case `IMAGE_TILED` (lines 94-99), with `n` the number
of iterations left and `image_x` the running column index. -/
def tiled_inner (bits : Nat) (bg : image) (y row off : Nat) : Nat → Nat → Nat → List Iter
  | 0, _, _ => []
  | n + 1, x, image_x =>
    { x := x, y := y, read := some (image_x, row), src := image_read bits bg image_x off }
      :: tiled_inner bits bg y row off n (x + 1)
          (if image_x = bg.img_width then 0 else wrap bits (image_x + 1))

/-- One row of the case `IMAGE_TILED` (lines 91-99). -/
def tiled_row (bits : Nat) (bg : image) (xstart xend y : Nat) : List Iter :=
  let image_y := y % bg.img_height
  let image_x := xstart % bg.img_width
  let row := subw bits (subw bits bg.img_height 1) image_y
  let off := wrap bits (bg.pitch * row)
  tiled_inner bits bg y row off (xend - xstart) xstart image_x

/-- The inner loop of the external part of the case `IMAGE_CENTERED`
(lines 109-112). -/
def centered_external_inner (bg : image) (y : Nat) : Nat → Nat → List Iter
  | 0, _ => []
  | n + 1, x =>
    { x := x, y := y, read := none, src := bg.back_colour }
      :: centered_external_inner bg y n (x + 1)

/-- The inner loop of the internal part of the case `IMAGE_CENTERED`
(lines 115-121). -/
def centered_internal_inner (bits : Nat) (bg : image) (y row off : Nat) : Nat → Nat → List Iter
  | 0, _ => []
  | n + 1, x =>
    let image_x := subw bits x bg.x_displacement
    let x_external := decide (image_x ≥ bg.x_size)
    let img_pixel := image_read bits bg image_x off
    { x := x, y := y, read := some (image_x, row),
      src := if x_external then bg.back_colour else img_pixel }
      :: centered_internal_inner bits bg y row off n (x + 1)

/-- One row of the case `IMAGE_CENTERED` (lines 105-122). -/
def centered_row (bits : Nat) (bg : image) (xstart xend y : Nat) : List Iter :=
  let image_y := subw bits y bg.y_displacement
  let row := subw bits (subw bits bg.img_height 1) image_y
  let off := wrap bits (bg.pitch * row)
  if image_y ≥ bg.y_size then centered_external_inner bg y (xend - xstart) xstart
  else centered_internal_inner bits bg y row off (xend - xstart) xstart

/-- The inner loop of the case `IMAGE_STRETCHED` (lines 136-141), with `img_x`
the fixed point accumulator. -/
def stretched_inner (bits : Nat) (bg : image) (y row off ratio : Nat) :
    Nat → Nat → Nat → List Iter
  | 0, _, _ => []
  | n + 1, x, img_x =>
    { x := x, y := y, read := some (fixedp6_to_int img_x, row),
      src := image_read bits bg (fixedp6_to_int img_x) off }
      :: stretched_inner bits bg y row off ratio n (x + 1) (wrap bits (img_x + ratio))

/-- The local `img_y` of the case `IMAGE_STRETCHED` (line 130). -/
def stretched_img_y (bits fb_h : Nat) (bg : image) (y : Nat) : Nat :=
  wrap bits (y * bg.img_height) / fb_h

/-- The local `ratio` of the case `IMAGE_STRETCHED` (line 134). -/
def stretched_ratio (bits fb_w : Nat) (bg : image) : Nat :=
  int_to_fixedp6 bits bg.img_width / fb_w

/-- One row of the case `IMAGE_STRETCHED` (lines 130-141). -/
def stretched_row (bits fb_w fb_h : Nat) (bg : image) (xstart xend y : Nat) : List Iter :=
  let img_y := stretched_img_y bits fb_h bg y
  let row := subw bits (subw bits bg.img_height 1) img_y
  let off := wrap bits (bg.pitch * row)
  let ratio := stretched_ratio bits fb_w bg
  let img_x := wrap bits (ratio * xstart)
  stretched_inner bits bg y row off ratio (xend - xstart) xstart img_x

/-- The iterations of `genloop(xstart, xend, ystart, yend, blend)` in order.
The iterations do not depend on `blend`, which only decides the stored value. -/
def genloop (bits fb_w fb_h : Nat) (bg : image) (xstart xend ystart yend : Nat) : List Iter :=
  match bg.type with
  | .IMAGE_TILED => for_rows (tiled_row bits bg xstart xend) (yend - ystart) ystart
  | .IMAGE_CENTERED => for_rows (centered_row bits bg xstart xend) (yend - ystart) ystart
  | .IMAGE_STRETCHED =>
    for_rows (stretched_row bits fb_w fb_h bg xstart xend) (yend - ystart) ystart

/-! ## The blend callbacks and the canvas (lines 147-190) -/

/-- The three callbacks handed to `genloop`. -/
inductive blend_fn where
  | blend_external
  | blend_margin
  | blend_internal
deriving DecidableEq

/-- The globals read while the canvas is generated: `fbinfo.framebuffer_width`,
`fbinfo.framebuffer_height`, `margin`, `margin_gradient` and `default_bg`. -/
structure canvas_globals where
  fb_w : Nat
  fb_h : Nat
  margin : Nat
  margin_gradient : Nat
  default_bg : Nat

/-- The functions `blend_external`, `blend_internal` and `blend_margin`
(lines 147-149), selected by the callback. -/
def apply_blend (bits : Nat) (g : canvas_globals) : blend_fn → Nat → Nat → Nat → Option Nat
  | .blend_external, _, _, orig => some orig
  | .blend_internal, _, _, orig => some (colour_blend g.default_bg orig)
  | .blend_margin, x, y, orig =>
    blend_gradient_from_box bits g.fb_w g.fb_h g.margin g.margin_gradient x y orig g.default_bg

/-- The index `canvas_off + x` of the store `bg_canvas[canvas_off + x] = i`, with
`canvas_off = fbinfo.framebuffer_width * y`. -/
def canvas_index (bits fb_w x y : Nat) : Nat := wrap bits (wrap bits (fb_w * y) + x)

/-- The stores `bg_canvas[canvas_off + x] = blend(x, y, src)` of a sequence of
iterations, applied in order to the canvas `c`; `none` when a callback is
undefined. -/
def store_all (bits : Nat) (g : canvas_globals) (f : blend_fn) :
    List Iter → (Nat → Nat) → Option (Nat → Nat)
  | [], c => some c
  | it :: rest, c =>
    match apply_blend bits g f it.x it.y it.src with
    | none => none
    | some v => store_all bits g f rest (Function.update c (canvas_index bits g.fb_w it.x it.y) v)

/-- One call `loop_external`, `loop_margin` or `loop_internal` (lines 151-153)
of `generate_canvas`: the callback and the rectangle. -/
structure loop_call where
  blend : blend_fn
  xstart : Nat
  xend : Nat
  ystart : Nat
  yend : Nat
deriving DecidableEq

/-- Conversion of a 64-bit pattern to `int64_t` (two's complement). -/
def to_int64 (n : Nat) : Int :=
  if n % 2 ^ 64 < 2 ^ 63 then ((n % 2 ^ 64 : Nat) : Int) else ((n % 2 ^ 64 : Nat) : Int) - 2 ^ 64

/-- The local `margin_no_gradient` of `generate_canvas` after the clamp
(lines 160-164), an `int64_t`.  In `(int64_t)margin - margin_gradient` the right
operand is a `size_t`: when `size_t` is narrower than 64 bits it is converted to
`int64_t` and the subtraction is exact; when it has 64 bits the subtraction is
an unsigned one whose result is converted back to `int64_t`. -/
def margin_no_gradient (bits margin margin_gradient : Nat) : Int :=
  let d : Int :=
    if bits < 64 then (margin : Int) - (margin_gradient : Int)
    else to_int64 (subw 64 margin margin_gradient)
  if d < 0 then 0 else d

/-- Conversion of an integer to a `size_t`. -/
def to_size_t (bits : Nat) (z : Int) : Nat := (z % 2 ^ bits).toNat

/-- The calls of `loop_external`, `loop_margin` and `loop_internal` that
`generate_canvas` makes, in order (lines 160-184). -/
def generate_canvas_calls (bits fb_w fb_h margin margin_gradient : Nat) : List loop_call :=
  let mng := margin_no_gradient bits margin margin_gradient
  let m := to_size_t bits mng
  let scan_stop_x := to_size_t bits ((fb_w : Int) - mng)
  let scan_stop_y := to_size_t bits ((fb_h : Int) - mng)
  let gradient_stop_x := subw bits fb_w margin
  let gradient_stop_y := subw bits fb_h margin
  [ { blend := .blend_external, xstart := 0, xend := fb_w, ystart := 0, yend := m },
    { blend := .blend_external, xstart := 0, xend := fb_w, ystart := scan_stop_y, yend := fb_h },
    { blend := .blend_external, xstart := 0, xend := m, ystart := m, yend := scan_stop_y },
    { blend := .blend_external, xstart := scan_stop_x, xend := fb_w,
      ystart := m, yend := scan_stop_y } ]
  ++ (if margin_gradient ≠ 0 then
      [ { blend := .blend_margin, xstart := m, xend := scan_stop_x, ystart := m, yend := margin },
        { blend := .blend_margin, xstart := m, xend := scan_stop_x,
          ystart := gradient_stop_y, yend := scan_stop_y },
        { blend := .blend_margin, xstart := m, xend := margin,
          ystart := margin, yend := gradient_stop_y },
        { blend := .blend_margin, xstart := gradient_stop_x, xend := scan_stop_x,
          ystart := margin, yend := gradient_stop_y } ]
    else [])
  ++ [ { blend := .blend_internal, xstart := margin, xend := gradient_stop_x,
         ystart := margin, yend := gradient_stop_y } ]

/-- The iterations of one call. -/
def call_iters (bits : Nat) (g : canvas_globals) (bg : image) (c : loop_call) : List Iter :=
  genloop bits g.fb_w g.fb_h bg c.xstart c.xend c.ystart c.yend

/-- All inner-loop iterations of `generate_canvas`, call after call. -/
def run_iters (bits : Nat) (g : canvas_globals) (bg : image) : List loop_call → List Iter
  | [] => []
  | c :: cs => call_iters bits g bg c ++ run_iters bits g bg cs

/-- The canvas after a sequence of calls, starting from the canvas `c`. -/
def run_calls (bits : Nat) (g : canvas_globals) (bg : image) :
    List loop_call → (Nat → Nat) → Option (Nat → Nat)
  | [], c => some c
  | k :: ks, c =>
    match store_all bits g k.blend (call_iters bits g bg k) c with
    | none => none
    | some c1 => run_calls bits g bg ks c1

/-- The function `generate_canvas`.  `background` is the global of that name
(`none` for `NULL`) and `fresh` the content of the buffer that `ext_mem_alloc`
returns.  The outer `Option` is `none` when a callback is undefined, the inner
one is `none` for the result `NULL`. -/
def generate_canvas (bits : Nat) (g : canvas_globals) (background : Option image)
    (fresh : Nat → Nat) : Option (Option (Nat → Nat)) :=
  match background with
  | none => some none
  | some bg =>
    match run_calls bits g bg
        (generate_canvas_calls bits g.fb_w g.fb_h g.margin g.margin_gradient) fresh with
    | none => none
    | some c => some (some c)

/-! ## The front part of `gterm_init` (lines 195-344) -/

/-- Modelled from the spec: the fields of `struct fb_info` (declared in the
framebuffer library, not part of `gterm.c`) that the reinit gate reads. -/
structure fb_info where
  default_res : Bool
  framebuffer_width : Nat
  framebuffer_height : Nat
  framebuffer_bpp : Nat

/-- The globals and build flag read by the reinit gate of `gterm_init`:
whether `BIOS` is defined, `quiet`, `allocations_disallowed`,
`current_video_mode`, `fbinfo`, `serial`, `last_serial` and `last_config`
(a pointer, here a number). -/
structure gate_globals where
  bios : Bool
  quiet : Bool
  allocations_disallowed : Bool
  current_video_mode : Int
  fbinfo : fb_info
  serial : Bool
  last_serial : Bool
  last_config : Nat

/-- The condition `current_video_mode >= 0` together with, when `BIOS` is
defined, `current_video_mode != 0x03` (lines 204-207 and 218-221). -/
def video_mode_active (s : gate_globals) : Bool :=
  decide (s.current_video_mode ≥ 0) && (!s.bios || decide (s.current_video_mode ≠ 0x03))

/-- The returns of `gterm_init(config, width, height)` up to line 229:
`some false` for the return at line 201, `some true` for the returns at lines
215 and 228 (after `term->clear`), and `none` when control reaches line 231,
where the terminal is rebuilt. -/
def gterm_init_gate (s : gate_globals) (config width height : Nat) : Option Bool :=
  if s.quiet || s.allocations_disallowed then some false
  else if video_mode_active s
      && s.fbinfo.default_res == true
      && width == 0
      && height == 0
      && s.fbinfo.framebuffer_bpp == 32
      && s.serial == s.last_serial
      && config == s.last_config then some true
  else if video_mode_active s
      && s.fbinfo.framebuffer_width == width
      && s.fbinfo.framebuffer_height == height
      && s.fbinfo.framebuffer_bpp == 32
      && s.serial == s.last_serial
      && config == s.last_config then some true
  else none

/-- The collaborators of the theme resolution, none of which is part of
`gterm.c`: `config_get_value(config, 0, key)`, `strtoui(s, NULL, base)`,
`uri_open(path)` (a file handle) and `image_open(file)`. -/
structure theme_env where
  config_get_value : String → Option String
  strtoui : String → Nat → Nat
  uri_open : String → Option Nat
  image_open : Nat → Option image

/-- The theme values that `gterm_init` resolves in lines 246-344. -/
structure theme where
  margin : Nat
  margin_gradient : Nat
  default_bg : Nat
  default_fg : Nat
  background : Option image

/-- The theme resolution of `gterm_init`: the default scheme (lines 246-248),
the colours (lines 304-315), the wallpaper (lines 317-334) and the margins
(lines 336-344).  `margin` and `margin_gradient` are `size_t`, the two colours
are `uint32_t`. -/
def gterm_init_theme (bits : Nat) (e : theme_env) : theme :=
  let margin := 64
  let margin_gradient := 4
  let default_bg := 0x00000000
  let default_fg := 0x00aaaaaa
  let theme_background := e.config_get_value "TERM_BACKGROUND"
  let default_bg :=
    match theme_background with
    | some v => e.strtoui v 16 % 2 ^ 32
    | none => default_bg
  let default_fg :=
    match e.config_get_value "TERM_FOREGROUND" with
    | some v => (e.strtoui v 16 % 2 ^ 32) &&& 0xffffff
    | none => default_fg
  let background : Option image :=
    match e.config_get_value "TERM_WALLPAPER" with
    | some background_path =>
      match e.uri_open background_path with
      | some bg_file => e.image_open bg_file
      | none => none
    | none => none
  let margin := if background.isNone then 0 else margin
  let margin_gradient := if background.isNone then 0 else margin_gradient
  let default_bg :=
    if background.isSome && theme_background.isNone then 0x80000000 else default_bg
  let margin :=
    match e.config_get_value "TERM_MARGIN" with
    | some v => wrap bits (e.strtoui v 10)
    | none => margin
  let margin_gradient :=
    match e.config_get_value "TERM_MARGIN_GRADIENT" with
    | some v => wrap bits (e.strtoui v 10)
    | none => margin_gradient
  { margin := margin, margin_gradient := margin_gradient, default_bg := default_bg,
    default_fg := default_fg, background := background }

/-- The `margin` argument of the call of `fbterm_init` (line 431): the global
`margin`, which nothing writes between line 344 and line 431. -/
def fbterm_init_margin (bits : Nat) (e : theme_env) : Nat := (gterm_init_theme bits e).margin

/-! ## Vocabulary of the statements -/

/-- The pixel `(x, y)` lies in the rectangle `[xstart, xend) x [ystart, yend)`
of the call `c`. -/
def in_call (c : loop_call) (x y : Nat) : Bool :=
  decide (c.xstart ≤ x) && decide (x < c.xend) && decide (c.ystart ≤ y) && decide (y < c.yend)

/-- The number of iterations of the sequence `l` whose destination pixel is
`(x, y)`, that is the number of stores to that pixel. -/
def visits (x y : Nat) (l : List Iter) : Nat :=
  l.countP (fun it => decide (it.x = x) && decide (it.y = y))

/-! ## Concrete inputs -/

/-- A tiled image of 2 x 2 pixels of 32 bits without row padding; the value
read at a byte offset is the offset itself. -/
def tile2 : image :=
  { img := fun off => off, type := .IMAGE_TILED, img_width := 2, img_height := 2,
    pitch := 8, bpp := 32, x_size := 2, y_size := 2, x_displacement := 0,
    y_displacement := 0, back_colour := 0 }

/-- A stretched image of 4 x 4 pixels of 32 bits without row padding; the value
read at a byte offset is the offset itself. -/
def stretch4 : image :=
  { img := fun off => off, type := .IMAGE_STRETCHED, img_width := 4, img_height := 4,
    pitch := 16, bpp := 32, x_size := 4, y_size := 4, x_displacement := 0,
    y_displacement := 0, back_colour := 0 }

/-- A centered image of 2 x 2 pixels of 32 bits placed at `(3, 3)` of an
8 x 8 framebuffer, with the backdrop colour `0x00123456`; the value read at a
byte offset is the offset itself. -/
def center2 : image :=
  { img := fun off => off, type := .IMAGE_CENTERED, img_width := 2, img_height := 2,
    pitch := 8, bpp := 32, x_size := 2, y_size := 2, x_displacement := 3,
    y_displacement := 3, back_colour := 0x00123456 }

/-- A stand-in for `strtoui` on strings of decimal digits: the number they
denote in the given base. -/
def digits_value (s : String) (base : Nat) : Nat :=
  s.data.foldl (fun n c => n * base + (c.toNat - 48)) 0

/-- A configuration whose only key is `TERM_MARGIN=10`; no file can be opened. -/
def margin_only_env : theme_env :=
  { config_get_value := fun key => if key = "TERM_MARGIN" then some "10" else none,
    strtoui := digits_value,
    uri_open := fun _ => none,
    image_open := fun _ => none }

/-- A state of the reinit gate: UEFI build, output not suppressed, video mode 0
active on a 1024 x 768 framebuffer of 32 bits, serial off as at the last build,
configuration at address `0x1000` as at the last build. -/
def active_state : gate_globals :=
  { bios := false, quiet := false, allocations_disallowed := false,
    current_video_mode := 0,
    fbinfo := { default_res := false, framebuffer_width := 1024,
                framebuffer_height := 768, framebuffer_bpp := 32 },
    serial := false, last_serial := false, last_config := 0x1000 }

/-! ## The stretched layout computed pixel by pixel -/

/-- The value of the accumulator `img_x` of the case `IMAGE_STRETCHED` after `k`
executions of `img_x += ratio` (line 140), starting from `img_x0`. -/
def stretched_img_x (bits ratio img_x0 : Nat) : Nat → Nat
  | 0 => img_x0
  | k + 1 => wrap bits (stretched_img_x bits ratio img_x0 k + ratio)

/-- The direct computation of the stretched layout for one destination pixel,
following the comment of lines 125-127 (`img_x = x * ratio`): the source column
is `fixedp6_to_int (ratio * x)`, the source row that of line 130. -/
def stretched_pixel (bits fb_w fb_h : Nat) (bg : image) (x y : Nat) : Iter :=
  let img_y := stretched_img_y bits fb_h bg y
  let row := subw bits (subw bits bg.img_height 1) img_y
  let off := wrap bits (bg.pitch * row)
  let ratio := stretched_ratio bits fb_w bg
  { x := x, y := y, read := some (fixedp6_to_int (ratio * x), row),
    src := image_read bits bg (fixedp6_to_int (ratio * x)) off }

/-- The pixels `x0, x0 + 1, ...` (`n` of them) of a row, each computed by `f`. -/
def direct_inner (f : Nat → Iter) : Nat → Nat → List Iter
  | 0, _ => []
  | n + 1, x => f x :: direct_inner f n (x + 1)

/-- The stretched layout over a rectangle, every pixel computed directly. -/
def genloop_stretched_direct (bits fb_w fb_h : Nat) (bg : image)
    (xstart xend ystart yend : Nat) : List Iter :=
  for_rows (fun y => direct_inner (fun x => stretched_pixel bits fb_w fb_h bg x y)
    (xend - xstart) xstart) (yend - ystart) ystart

/-- The region of the canvas that holds the pixel `(x, y)`, named by the
callback applied there: the outer strips (`blend_external`), the inner
rectangle `[M, W - M) x [M, H - M)` (`blend_internal`) and, between them, the
gradient band (`blend_margin`). -/
def region (W H M G x y : Nat) : blend_fn :=
  if x < M - G ∨ W - (M - G) ≤ x ∨ y < M - G ∨ H - (M - G) ≤ y then .blend_external
  else if M ≤ x ∧ x < W - M ∧ M ≤ y ∧ y < H - M then .blend_internal
  else .blend_margin

/-- A tiled 16 x 16 checkerboard of 32 bits without row padding: the pixel of
column `off / 4 % 16` and stored row `off / 64` is white when the sum of the
two is even and black otherwise. -/
def checker16 : image :=
  { img := fun off => if (off / 4 % 16 + off / 64) % 2 = 0 then 0x00ffffff else 0x00000000,
    type := .IMAGE_TILED, img_width := 16, img_height := 16,
    pitch := 64, bpp := 32, x_size := 16, y_size := 16, x_displacement := 0,
    y_displacement := 0, back_colour := 0 }

/-! ## Basic facts on colours -/

theorem ARGB_zero_eq (r g b : Nat) (hr : r < 256) (hg : g < 256) (hb : b < 256) :
    ARGB 0 r g b = r * 65536 + g * 256 + b := by
  unfold ARGB
  have e1 : r &&& 0xFF = r := by
    have := Nat.and_pow_two_sub_one_eq_mod r 8
    norm_num at this
    rw [this]; omega
  have e2 : g &&& 0xFF = g := by
    have := Nat.and_pow_two_sub_one_eq_mod g 8
    norm_num at this
    rw [this]; omega
  have e3 : b &&& 0xFF = b := by
    have := Nat.and_pow_two_sub_one_eq_mod b 8
    norm_num at this
    rw [this]; omega
  rw [e1, e2, e3]
  simp only [Nat.zero_shiftLeft, Nat.zero_or]
  simp only [Nat.shiftLeft_eq]
  have h1 : r * 2 ^ 16 ||| g * 2 ^ 8 = 2 ^ 16 * r + g * 2 ^ 8 := by
    rw [Nat.mul_comm r, Nat.mul_add_lt_is_or (by omega)]
  have h2 : 2 ^ 16 * r + g * 2 ^ 8 = 2 ^ 8 * (256 * r + g) := by omega
  rw [h1, h2, ← Nat.mul_add_lt_is_or (by omega)]
  omega

theorem colour_blend_eq (fg bg : Nat) :
    colour_blend fg bg =
      ((255 - A fg) * R fg + (A fg + 1) * R bg) / 256 * 65536
      + ((255 - A fg) * G fg + (A fg + 1) * G bg) / 256 * 256
      + ((255 - A fg) * B fg + (A fg + 1) * B bg) / 256 := by
  have ha : A fg < 256 := Nat.mod_lt _ (by norm_num)
  have bound : ∀ t b : Nat, t < 256 → b < 256 →
      ((255 - A fg) * t + (A fg + 1) * b) / 256 < 256 := by
    intro t b ht hb
    have h1 : (255 - A fg) * t ≤ (255 - A fg) * 255 := Nat.mul_le_mul_left _ (by omega)
    have h2 : (A fg + 1) * b ≤ (A fg + 1) * 255 := Nat.mul_le_mul_left _ (by omega)
    have h3 : (255 - A fg) * 255 + (A fg + 1) * 255 = 256 * 255 := by
      rw [← Nat.add_mul]; congr 1; omega
    omega
  have hr := bound (R fg) (R bg) (Nat.mod_lt _ (by norm_num)) (Nat.mod_lt _ (by norm_num))
  have hg := bound (G fg) (G bg) (Nat.mod_lt _ (by norm_num)) (Nat.mod_lt _ (by norm_num))
  have hb := bound (B fg) (B bg) (Nat.mod_lt _ (by norm_num)) (Nat.mod_lt _ (by norm_num))
  unfold colour_blend
  simp only
  rw [Nat.mod_eq_of_lt hr, Nat.mod_eq_of_lt hg, Nat.mod_eq_of_lt hb,
    ARGB_zero_eq _ _ _ hr hg hb]
  omega


theorem channel_lt (a t b : Nat) (ha : a < 256) (ht : t < 256) (hb : b < 256) :
    ((255 - a) * t + (a + 1) * b) / 256 < 256 := by
  have h1 : (255 - a) * t ≤ (255 - a) * 255 := Nat.mul_le_mul_left _ (by omega)
  have h2 : (a + 1) * b ≤ (a + 1) * 255 := Nat.mul_le_mul_left _ (by omega)
  have h3 : (255 - a) * 255 + (a + 1) * 255 = 256 * 255 := by
    rw [← Nat.add_mul]; congr 1; omega
  omega

theorem A_lt (c : Nat) : A c < 256 := Nat.mod_lt _ (by norm_num)

theorem R_lt (c : Nat) : R c < 256 := Nat.mod_lt _ (by norm_num)

theorem G_lt (c : Nat) : G c < 256 := Nat.mod_lt _ (by norm_num)

theorem B_lt (c : Nat) : B c < 256 := Nat.mod_lt _ (by norm_num)

/-- The four bytes of a colour given by its three channels and a zero alpha. -/
theorem bytes_of_channels (r g b : Nat) (hr : r < 256) (hg : g < 256) (hb : b < 256) :
    A (r * 65536 + g * 256 + b) = 0 ∧ R (r * 65536 + g * 256 + b) = r
      ∧ G (r * 65536 + g * 256 + b) = g ∧ B (r * 65536 + g * 256 + b) = b := by
  unfold A R G B
  simp only [Nat.shiftRight_eq_div_pow]
  refine ⟨?_, ?_, ?_, ?_⟩ <;> omega

/-- The bytes of a blend, as a lemma for the proofs below. -/
theorem colour_blend_bytes (fg bg : Nat) :
    A (colour_blend fg bg) = 0
    ∧ R (colour_blend fg bg) = ((255 - A fg) * R fg + (A fg + 1) * R bg) / 256
    ∧ G (colour_blend fg bg) = ((255 - A fg) * G fg + (A fg + 1) * G bg) / 256
    ∧ B (colour_blend fg bg) = ((255 - A fg) * B fg + (A fg + 1) * B bg) / 256 := by
  rw [colour_blend_eq]
  exact bytes_of_channels _ _ _
    (channel_lt _ _ _ (A_lt fg) (R_lt fg) (R_lt bg))
    (channel_lt _ _ _ (A_lt fg) (G_lt fg) (G_lt bg))
    (channel_lt _ _ _ (A_lt fg) (B_lt fg) (B_lt bg))

/-! ## C1: the channels of `colour_blend` -/

/-- C1: for all colours `top` and `bottom`, with `a` the alpha byte of `top`,
`colour_blend top bottom` has alpha byte 0 and each of its red, green and blue
bytes is `((255 - a) * top_channel + (a + 1) * bottom_channel) / 256`. -/
theorem colour_blend_channels (top bottom : Nat) :
    A (colour_blend top bottom) = 0
    ∧ R (colour_blend top bottom) = ((255 - A top) * R top + (A top + 1) * R bottom) / 256
    ∧ G (colour_blend top bottom) = ((255 - A top) * G top + (A top + 1) * G bottom) / 256
    ∧ B (colour_blend top bottom) = ((255 - A top) * B top + (A top + 1) * B bottom) / 256 := by
  rw [colour_blend_eq]
  refine bytes_of_channels _ _ _ ?_ ?_ ?_
  · exact channel_lt _ _ _ (A_lt top) (R_lt top) (R_lt bottom)
  · exact channel_lt _ _ _ (A_lt top) (G_lt top) (G_lt bottom)
  · exact channel_lt _ _ _ (A_lt top) (B_lt top) (B_lt bottom)

/-! ## C4: a top colour of alpha byte 0 or 255 -/

/-- C4, as stated, fails: with `top = 0x00000000` (alpha byte 0) and
`bottom = 0x00ffffff` the blend is `0x00000000`, not `bottom & 0x00ffffff`. -/
theorem colour_blend_alpha_zero_counterexample :
    A 0x00000000 = 0 ∧ colour_blend 0x00000000 0x00ffffff = 0
      ∧ colour_blend 0x00000000 0x00ffffff ≠ 0x00ffffff &&& 0x00ffffff := by
  decide

/-- C4, amended: for every colour `top` whose alpha byte is 255 and every colour
`bottom`, `colour_blend top bottom` equals `bottom & 0x00ffffff`. -/
theorem colour_blend_alpha_255 (top bottom : Nat) (h : A top = 255) :
    colour_blend top bottom = bottom &&& 0x00ffffff := by
  have e : bottom &&& 0x00ffffff = bottom % 2 ^ 24 := by
    have := Nat.and_pow_two_sub_one_eq_mod bottom 24
    norm_num at this
    rw [this]; norm_num
  rw [colour_blend_eq, e, h]
  unfold R G B
  simp only [Nat.shiftRight_eq_div_pow]
  omega

theorem colour_blend_alpha_255_witness :
    A 0xff102030 = 255 ∧ colour_blend 0xff102030 0x12345678 = 0x12345678 &&& 0x00ffffff :=
  ⟨by decide, colour_blend_alpha_255 0xff102030 0x12345678 (by decide)⟩

/-! ## C5: the other extreme of the alpha byte -/

/-- C5, as stated, fails: with `top = 0xff000000` (alpha byte 255) and
`bottom = 0x00ffffff` every channel of the blend is 255 while every channel of
`top` is 0. -/
theorem colour_blend_alpha_255_counterexample :
    A 0xff000000 = 255
      ∧ R (colour_blend 0xff000000 0x00ffffff) = 255 ∧ R 0xff000000 = 0
      ∧ G (colour_blend 0xff000000 0x00ffffff) = 255 ∧ G 0xff000000 = 0
      ∧ B (colour_blend 0xff000000 0x00ffffff) = 255 ∧ B 0xff000000 = 0 := by
  decide

/-- C5, amended: for every colour `top` whose alpha byte is 0 and every colour
`bottom`, each of the red, green and blue bytes of `colour_blend top bottom`
is the corresponding byte of `top` or one less. -/
theorem colour_blend_alpha_zero (top bottom : Nat) (h : A top = 0) :
    (R (colour_blend top bottom) ≤ R top ∧ R top ≤ R (colour_blend top bottom) + 1)
    ∧ (G (colour_blend top bottom) ≤ G top ∧ G top ≤ G (colour_blend top bottom) + 1)
    ∧ (B (colour_blend top bottom) ≤ B top ∧ B top ≤ B (colour_blend top bottom) + 1) := by
  obtain ⟨-, hr, hg, hb⟩ := colour_blend_bytes top bottom
  rw [hr, hg, hb, h]
  have := R_lt top
  have := R_lt bottom
  have := G_lt top
  have := G_lt bottom
  have := B_lt top
  have := B_lt bottom
  refine ⟨⟨?_, ?_⟩, ⟨?_, ?_⟩, ⟨?_, ?_⟩⟩ <;> omega

theorem colour_blend_alpha_zero_witness :
    A 0x00102030 = 0
    ∧ (R (colour_blend 0x00102030 0x00ffffff) ≤ R 0x00102030
        ∧ R 0x00102030 ≤ R (colour_blend 0x00102030 0x00ffffff) + 1)
    ∧ (G (colour_blend 0x00102030 0x00ffffff) ≤ G 0x00102030
        ∧ G 0x00102030 ≤ G (colour_blend 0x00102030 0x00ffffff) + 1)
    ∧ (B (colour_blend 0x00102030 0x00ffffff) ≤ B 0x00102030
        ∧ B 0x00102030 ≤ B (colour_blend 0x00102030 0x00ffffff) + 1) :=
  ⟨by decide, colour_blend_alpha_zero 0x00102030 0x00ffffff (by decide)⟩

/-! ## The pixels visited by `genloop` -/

theorem visits_nil (x y : Nat) : visits x y [] = 0 := rfl

theorem visits_cons (x y : Nat) (it : Iter) (l : List Iter) :
    visits x y (it :: l) = visits x y l + (if it.x = x ∧ it.y = y then 1 else 0) := by
  unfold visits
  rw [List.countP_cons]
  simp only [Bool.and_eq_true, decide_eq_true_eq]

theorem visits_append (x y : Nat) (l1 l2 : List Iter) :
    visits x y (l1 ++ l2) = visits x y l1 + visits x y l2 := by
  unfold visits
  rw [List.countP_append]

theorem visits_pos_of_mem (it : Iter) (l : List Iter) (h : it ∈ l) :
    0 < visits it.x it.y l := by
  unfold visits
  rw [List.countP_pos_iff]
  exact ⟨it, h, by simp⟩

theorem visits_tiled_inner (bits : Nat) (bg : image) (y0 row off x y : Nat) :
    ∀ (n x0 image_x : Nat), visits x y (tiled_inner bits bg y0 row off n x0 image_x)
      = if y0 = y ∧ x0 ≤ x ∧ x < x0 + n then 1 else 0 := by
  intro n
  induction n with
  | zero =>
    intro x0 image_x
    rw [tiled_inner, visits_nil]
    split_ifs <;> omega
  | succ n ih =>
    intro x0 image_x
    rw [tiled_inner, visits_cons, ih]
    simp only
    split_ifs <;> omega

theorem visits_centered_external_inner (bg : image) (y0 x y : Nat) :
    ∀ (n x0 : Nat), visits x y (centered_external_inner bg y0 n x0)
      = if y0 = y ∧ x0 ≤ x ∧ x < x0 + n then 1 else 0 := by
  intro n
  induction n with
  | zero =>
    intro x0
    rw [centered_external_inner, visits_nil]
    split_ifs <;> omega
  | succ n ih =>
    intro x0
    rw [centered_external_inner, visits_cons, ih]
    simp only
    split_ifs <;> omega

theorem visits_centered_internal_inner (bits : Nat) (bg : image) (y0 row off x y : Nat) :
    ∀ (n x0 : Nat), visits x y (centered_internal_inner bits bg y0 row off n x0)
      = if y0 = y ∧ x0 ≤ x ∧ x < x0 + n then 1 else 0 := by
  intro n
  induction n with
  | zero =>
    intro x0
    rw [centered_internal_inner, visits_nil]
    split_ifs <;> omega
  | succ n ih =>
    intro x0
    rw [centered_internal_inner, visits_cons, ih]
    simp only
    split_ifs <;> omega

theorem visits_stretched_inner (bits : Nat) (bg : image) (y0 row off ratio x y : Nat) :
    ∀ (n x0 img_x : Nat), visits x y (stretched_inner bits bg y0 row off ratio n x0 img_x)
      = if y0 = y ∧ x0 ≤ x ∧ x < x0 + n then 1 else 0 := by
  intro n
  induction n with
  | zero =>
    intro x0 img_x
    rw [stretched_inner, visits_nil]
    split_ifs <;> omega
  | succ n ih =>
    intro x0 img_x
    rw [stretched_inner, visits_cons, ih]
    simp only
    split_ifs <;> omega

theorem visits_for_rows (row : Nat → List Iter) (xstart xend x y : Nat)
    (hrow : ∀ y0, visits x y (row y0) = if y0 = y ∧ xstart ≤ x ∧ x < xend then 1 else 0) :
    ∀ (n y0 : Nat), visits x y (for_rows row n y0)
      = if y0 ≤ y ∧ y < y0 + n ∧ xstart ≤ x ∧ x < xend then 1 else 0 := by
  intro n
  induction n with
  | zero =>
    intro y0
    rw [for_rows, visits_nil]
    split_ifs <;> omega
  | succ n ih =>
    intro y0
    rw [for_rows, visits_append, ih, hrow]
    split_ifs <;> omega

theorem visits_genloop (bits fb_w fb_h : Nat) (bg : image) (xstart xend ystart yend x y : Nat) :
    visits x y (genloop bits fb_w fb_h bg xstart xend ystart yend)
      = if xstart ≤ x ∧ x < xend ∧ ystart ≤ y ∧ y < yend then 1 else 0 := by
  have key : ∀ row : Nat → List Iter,
      (∀ y0, visits x y (row y0) = if y0 = y ∧ xstart ≤ x ∧ x < xend then 1 else 0) →
      visits x y (for_rows row (yend - ystart) ystart)
        = if xstart ≤ x ∧ x < xend ∧ ystart ≤ y ∧ y < yend then 1 else 0 := by
    intro row hrow
    rw [visits_for_rows row xstart xend x y hrow]
    split_ifs <;> omega
  unfold genloop
  cases bg.type with
  | IMAGE_TILED =>
    apply key
    intro y0
    rw [tiled_row, visits_tiled_inner]
    split_ifs <;> omega
  | IMAGE_CENTERED =>
    apply key
    intro y0
    unfold centered_row
    simp only
    split
    · rw [visits_centered_external_inner]
      split_ifs <;> omega
    · rw [visits_centered_internal_inner]
      split_ifs <;> omega
  | IMAGE_STRETCHED =>
    apply key
    intro y0
    rw [stretched_row, visits_stretched_inner]
    split_ifs <;> omega

theorem visits_run_iters (bits : Nat) (g : canvas_globals) (bg : image) (x y : Nat) :
    ∀ calls : List loop_call,
      visits x y (run_iters bits g bg calls) = calls.countP (fun c => in_call c x y) := by
  intro calls
  induction calls with
  | nil => rfl
  | cons c cs ih =>
    rw [run_iters, visits_append, ih, List.countP_cons, call_iters, visits_genloop]
    simp only [in_call, Bool.and_eq_true, decide_eq_true_eq]
    split_ifs <;> omega

/-! ## Machine arithmetic without wrap-around -/

theorem wrap_eq (bits n : Nat) (h : n < 2 ^ bits) : wrap bits n = n :=
  Nat.mod_eq_of_lt h

theorem subw_eq (bits a b : Nat) (ha : a < 2 ^ bits) (hb : b ≤ a) : subw bits a b = a - b := by
  unfold subw
  rw [Nat.mod_eq_of_lt ha, Nat.mod_eq_of_lt (lt_of_le_of_lt hb ha)]
  have e : a + (2 ^ bits - b) = (a - b) + 2 ^ bits := by omega
  rw [e, Nat.add_mod_right, Nat.mod_eq_of_lt (by omega)]

theorem to_size_t_eq (bits n : Nat) (h : n < 2 ^ bits) : to_size_t bits (n : Int) = n := by
  unfold to_size_t
  have e : ((2 : Int) ^ bits) = ((2 ^ bits : Nat) : Int) := by push_cast; rfl
  rw [e, Int.emod_eq_of_lt (by omega) (by exact_mod_cast h)]
  simp

theorem margin_no_gradient_eq (bits margin margin_gradient : Nat)
    (hbits : bits = 32 ∨ bits = 64) (hm : 2 * margin < 2 ^ bits)
    (hg : margin_gradient ≤ margin) :
    margin_no_gradient bits margin margin_gradient = ((margin - margin_gradient : Nat) : Int) := by
  unfold margin_no_gradient
  rcases hbits with rfl | rfl
  · simp only [show (32 : Nat) < 64 by norm_num, if_true]
    split_ifs <;> omega
  · simp only [show ¬ ((64 : Nat) < 64) by norm_num, if_false]
    rw [subw_eq 64 margin margin_gradient (by omega) hg]
    unfold to_int64
    norm_num at hm ⊢
    have h1 : (margin - margin_gradient) % 18446744073709551616 = margin - margin_gradient := by
      omega
    rw [h1]
    split_ifs <;> omega

/-- Under the hypotheses of the region partition nothing wraps in
`generate_canvas`: the calls are the nine (or five) rectangles cut by the lines
`M - G`, `M`, `W - M` and `W - (M - G)`. -/
theorem generate_canvas_calls_eq (bits W H M G : Nat) (hbits : bits = 32 ∨ bits = 64)
    (hW : W < 2 ^ bits) (hH : H < 2 ^ bits) (hG : G ≤ M) (hM : 2 * M < min W H) :
    generate_canvas_calls bits W H M G =
      [ { blend := .blend_external, xstart := 0, xend := W, ystart := 0, yend := M - G },
        { blend := .blend_external, xstart := 0, xend := W, ystart := H - (M - G), yend := H },
        { blend := .blend_external, xstart := 0, xend := M - G,
          ystart := M - G, yend := H - (M - G) },
        { blend := .blend_external, xstart := W - (M - G), xend := W,
          ystart := M - G, yend := H - (M - G) } ]
      ++ (if G ≠ 0 then
          [ { blend := .blend_margin, xstart := M - G, xend := W - (M - G),
              ystart := M - G, yend := M },
            { blend := .blend_margin, xstart := M - G, xend := W - (M - G),
              ystart := H - M, yend := H - (M - G) },
            { blend := .blend_margin, xstart := M - G, xend := M, ystart := M, yend := H - M },
            { blend := .blend_margin, xstart := W - M, xend := W - (M - G),
              ystart := M, yend := H - M } ]
        else [])
      ++ [ { blend := .blend_internal, xstart := M, xend := W - M, ystart := M, yend := H - M } ] := by
  have hMW : 2 * M < W := lt_of_lt_of_le hM (min_le_left _ _)
  have hMH : 2 * M < H := lt_of_lt_of_le hM (min_le_right _ _)
  have e1 := margin_no_gradient_eq bits M G hbits (by omega) hG
  have e2 : to_size_t bits ((M - G : Nat) : Int) = M - G := to_size_t_eq _ _ (by omega)
  have e3 : to_size_t bits ((W : Int) - ((M - G : Nat) : Int)) = W - (M - G) := by
    have : (W : Int) - ((M - G : Nat) : Int) = ((W - (M - G) : Nat) : Int) := by omega
    rw [this]
    exact to_size_t_eq _ _ (by omega)
  have e4 : to_size_t bits ((H : Int) - ((M - G : Nat) : Int)) = H - (M - G) := by
    have : (H : Int) - ((M - G : Nat) : Int) = ((H - (M - G) : Nat) : Int) := by omega
    rw [this]
    exact to_size_t_eq _ _ (by omega)
  have e5 : subw bits W M = W - M := subw_eq _ _ _ hW (by omega)
  have e6 : subw bits H M = H - M := subw_eq _ _ _ hH (by omega)
  unfold generate_canvas_calls
  simp only [e1, e2, e3, e4, e5, e6]

/-! ## C2: the regions of `generate_canvas` -/

theorem countP_le_one_of_pairwise {α : Type} (p : α → Bool) :
    ∀ l : List α, l.Pairwise (fun c d => ¬ (p c = true ∧ p d = true)) → l.countP p ≤ 1 := by
  intro l
  induction l with
  | nil => intro _; simp
  | cons a l ih =>
    intro h
    rw [List.pairwise_cons] at h
    rw [List.countP_cons]
    by_cases ha : p a = true
    · have hz : l.countP p = 0 := by
        rw [List.countP_eq_zero]
        intro d hd hpd
        exact h.1 d hd ⟨ha, hpd⟩
      rw [hz, if_pos ha]
    · have := ih h.2
      rw [if_neg ha]
      omega

theorem calls_pairwise (bits W H M G : Nat) (hbits : bits = 32 ∨ bits = 64)
    (hW : W < 2 ^ bits) (hH : H < 2 ^ bits) (hG : G ≤ M) (hM : 2 * M < min W H) :
    (generate_canvas_calls bits W H M G).Pairwise
      (fun c d => ∀ x y, ¬ (in_call c x y = true ∧ in_call d x y = true)) := by
  have hMW : 2 * M < W := lt_of_lt_of_le hM (min_le_left _ _)
  have hMH : 2 * M < H := lt_of_lt_of_le hM (min_le_right _ _)
  rw [generate_canvas_calls_eq bits W H M G hbits hW hH hG hM]
  by_cases h0 : G = 0
  · simp only [h0, ne_eq, not_true_eq_false, if_false, List.append_nil, List.cons_append,
      List.nil_append, List.pairwise_cons, List.mem_cons, List.mem_singleton, in_call,
      Bool.and_eq_true, decide_eq_true_eq, forall_eq_or_imp, forall_eq]
    simp only [List.not_mem_nil, false_implies, implies_true, List.Pairwise.nil, and_true]
    refine ⟨⟨?_, ?_, ?_, ?_⟩, ⟨?_, ?_, ?_⟩, ⟨?_, ?_⟩, ?_⟩ <;> intro x y <;> omega
  · simp only [ne_eq, h0, not_false_eq_true, if_true, List.cons_append,
      List.nil_append, List.pairwise_cons, List.mem_cons, List.mem_singleton, in_call,
      Bool.and_eq_true, decide_eq_true_eq, forall_eq_or_imp, forall_eq]
    simp only [List.not_mem_nil, false_implies, implies_true, List.Pairwise.nil, and_true]
    refine ⟨⟨?_, ?_, ?_, ?_, ?_, ?_, ?_, ?_⟩, ⟨?_, ?_, ?_, ?_, ?_, ?_, ?_⟩,
      ⟨?_, ?_, ?_, ?_, ?_, ?_⟩, ⟨?_, ?_, ?_, ?_, ?_⟩, ⟨?_, ?_, ?_, ?_⟩, ⟨?_, ?_, ?_⟩,
      ⟨?_, ?_⟩, ?_⟩ <;> intro x y <;> omega

theorem calls_cover (bits W H M G x y : Nat) (hbits : bits = 32 ∨ bits = 64)
    (hW : W < 2 ^ bits) (hH : H < 2 ^ bits) (hG : G ≤ M) (hM : 2 * M < min W H)
    (hx : x < W) (hy : y < H) :
    ∃ c ∈ generate_canvas_calls bits W H M G, in_call c x y = true := by
  have hMW : 2 * M < W := lt_of_lt_of_le hM (min_le_left _ _)
  have hMH : 2 * M < H := lt_of_lt_of_le hM (min_le_right _ _)
  rw [generate_canvas_calls_eq bits W H M G hbits hW hH hG hM]
  have inc : ∀ c : loop_call, (c.xstart ≤ x ∧ x < c.xend ∧ c.ystart ≤ y ∧ y < c.yend) →
      in_call c x y = true := by
    intro c h
    simp only [in_call, Bool.and_eq_true, decide_eq_true_eq]
    omega
  by_cases c1 : y < M - G
  · exact ⟨⟨.blend_external, 0, W, 0, M - G⟩, by simp, inc _ (by simp only; omega)⟩
  by_cases c2 : H - (M - G) ≤ y
  · exact ⟨⟨.blend_external, 0, W, H - (M - G), H⟩, by simp, inc _ (by simp only; omega)⟩
  by_cases c3 : x < M - G
  · exact ⟨⟨.blend_external, 0, M - G, M - G, H - (M - G)⟩, by simp,
      inc _ (by simp only; omega)⟩
  by_cases c4 : W - (M - G) ≤ x
  · exact ⟨⟨.blend_external, W - (M - G), W, M - G, H - (M - G)⟩, by simp,
      inc _ (by simp only; omega)⟩
  by_cases c9 : M ≤ x ∧ x < W - M ∧ M ≤ y ∧ y < H - M
  · exact ⟨⟨.blend_internal, M, W - M, M, H - M⟩, by simp, inc _ (by simp only; omega)⟩
  have h0 : G ≠ 0 := by omega
  by_cases c5 : y < M
  · exact ⟨⟨.blend_margin, M - G, W - (M - G), M - G, M⟩, by simp [h0],
      inc _ (by simp only; omega)⟩
  by_cases c6 : H - M ≤ y
  · exact ⟨⟨.blend_margin, M - G, W - (M - G), H - M, H - (M - G)⟩, by simp [h0],
      inc _ (by simp only; omega)⟩
  by_cases c7 : x < M
  · exact ⟨⟨.blend_margin, M - G, M, M, H - M⟩, by simp [h0], inc _ (by simp only; omega)⟩
  · exact ⟨⟨.blend_margin, W - M, W - (M - G), M, H - M⟩, by simp [h0],
      inc _ (by simp only; omega)⟩

theorem countP_calls_eq_one (bits W H M G x y : Nat) (hbits : bits = 32 ∨ bits = 64)
    (hW : W < 2 ^ bits) (hH : H < 2 ^ bits) (hG : G ≤ M) (hM : 2 * M < min W H)
    (hx : x < W) (hy : y < H) :
    (generate_canvas_calls bits W H M G).countP (fun c => in_call c x y) = 1 := by
  have hle := countP_le_one_of_pairwise (fun c => in_call c x y)
    (generate_canvas_calls bits W H M G)
    ((calls_pairwise bits W H M G hbits hW hH hG hM).imp (fun h => h x y))
  have hpos : 0 < (generate_canvas_calls bits W H M G).countP (fun c => in_call c x y) := by
    rw [List.countP_pos_iff]
    exact calls_cover bits W H M G x y hbits hW hH hG hM hx hy
  omega

theorem calls_inside (bits W H M G : Nat) (hbits : bits = 32 ∨ bits = 64)
    (hW : W < 2 ^ bits) (hH : H < 2 ^ bits) (hG : G ≤ M) (hM : 2 * M < min W H) :
    ∀ c ∈ generate_canvas_calls bits W H M G,
      c.xstart ≤ c.xend ∧ c.xend ≤ W ∧ c.ystart ≤ c.yend ∧ c.yend ≤ H := by
  have hMW : 2 * M < W := lt_of_lt_of_le hM (min_le_left _ _)
  have hMH : 2 * M < H := lt_of_lt_of_le hM (min_le_right _ _)
  rw [generate_canvas_calls_eq bits W H M G hbits hW hH hG hM]
  intro c hc
  by_cases h0 : G = 0
  · simp only [h0, ne_eq, not_true_eq_false, if_false, List.append_nil, List.cons_append,
      List.nil_append, List.mem_cons, List.mem_singleton] at hc
    rcases hc with rfl | rfl | rfl | rfl | rfl | hc
    all_goals first | (simp only; omega) | simp at hc
  · simp only [ne_eq, h0, not_false_eq_true, if_true, List.cons_append,
      List.nil_append, List.mem_cons, List.mem_singleton] at hc
    rcases hc with rfl | rfl | rfl | rfl | rfl | rfl | rfl | rfl | rfl | hc
    all_goals first | (simp only; omega) | simp at hc

/-- C2: for `0 ≤ G ≤ M` and `2 * M < min W H` (which `M < min(W,H)/2` gives),
the rectangles that `generate_canvas` passes to `loop_external`, `loop_margin`
and `loop_internal` are four outer strips, four gradient strips when `G ≠ 0`
and one inner rectangle; they lie inside the `W x H` grid, are pairwise
disjoint and cover the grid; and for every image the iterations of `genloop`
over them stay inside the grid and store to every pixel of it exactly once. -/
theorem generate_canvas_partition (bits W H M G : Nat) (hbits : bits = 32 ∨ bits = 64)
    (hW : W < 2 ^ bits) (hH : H < 2 ^ bits) (hG : G ≤ M) (hM : 2 * M < min W H) :
    (generate_canvas_calls bits W H M G).map (fun c => c.blend)
      = [blend_fn.blend_external, .blend_external, .blend_external, .blend_external]
        ++ (if G ≠ 0 then [.blend_margin, .blend_margin, .blend_margin, .blend_margin] else [])
        ++ [.blend_internal]
    ∧ (∀ c ∈ generate_canvas_calls bits W H M G,
        c.xstart ≤ c.xend ∧ c.xend ≤ W ∧ c.ystart ≤ c.yend ∧ c.yend ≤ H)
    ∧ (generate_canvas_calls bits W H M G).Pairwise
        (fun c d => ∀ x y, ¬ (in_call c x y = true ∧ in_call d x y = true))
    ∧ (∀ x y, x < W → y < H →
        ∃ c ∈ generate_canvas_calls bits W H M G, in_call c x y = true)
    ∧ (∀ (bg : image) (default_bg : Nat),
        (∀ it ∈ run_iters bits ⟨W, H, M, G, default_bg⟩ bg (generate_canvas_calls bits W H M G),
          it.x < W ∧ it.y < H)
        ∧ (∀ x y, x < W → y < H →
          visits x y (run_iters bits ⟨W, H, M, G, default_bg⟩ bg
            (generate_canvas_calls bits W H M G)) = 1)) := by
  have hMW : 2 * M < W := lt_of_lt_of_le hM (min_le_left _ _)
  have hMH : 2 * M < H := lt_of_lt_of_le hM (min_le_right _ _)
  have hin := calls_inside bits W H M G hbits hW hH hG hM
  have hex : ∀ x y, 0 < (generate_canvas_calls bits W H M G).countP (fun c => in_call c x y) →
      x < W ∧ y < H := by
    intro x y hpos
    rw [List.countP_pos_iff] at hpos
    obtain ⟨c, hc, hxy⟩ := hpos
    have hb := hin c hc
    simp only [in_call, Bool.and_eq_true, decide_eq_true_eq] at hxy
    omega
  refine ⟨?_, hin, calls_pairwise bits W H M G hbits hW hH hG hM,
    fun x y hx hy => calls_cover bits W H M G x y hbits hW hH hG hM hx hy, ?_⟩
  · rw [generate_canvas_calls_eq bits W H M G hbits hW hH hG hM]
    by_cases h0 : G = 0
    · simp [h0]
    · simp [h0]
  · intro bg default_bg
    refine ⟨?_, ?_⟩
    · intro it hit
      have hpos := visits_pos_of_mem it _ hit
      rw [visits_run_iters] at hpos
      exact hex _ _ hpos
    · intro x y hx hy
      rw [visits_run_iters]
      exact countP_calls_eq_one bits W H M G x y hbits hW hH hG hM hx hy

theorem generate_canvas_partition_witness :
    (32 = 32 ∨ 32 = 64) ∧ 800 < 2 ^ 32 ∧ 600 < 2 ^ 32 ∧ 4 ≤ 64 ∧ 2 * 64 < min 800 600
    ∧ (∀ x y, x < 800 → y < 600 →
        ∃ c ∈ generate_canvas_calls 32 800 600 64 4, in_call c x y = true) :=
  ⟨Or.inl rfl, by norm_num, by norm_num, by norm_num, by norm_num,
    (generate_canvas_partition 32 800 600 64 4 (Or.inl rfl) (by norm_num) (by norm_num)
      (by norm_num) (by norm_num)).2.2.2.1⟩

/-! ## C3: the running column index of the tiled layout -/

/-- C3 (defect of the code): on the tiled 2 x 2 image `tile2`,
`genloop(0, 4, 0, 1, blend)` reads the columns 0, 1, 2, 0 for the destination
pixels `x = 0, 1, 2, 3`, while `x mod image_width` is 0, 1, 0, 1: the running
index reaches `img_width` itself before it is reset, because line 98 compares
the value before the increment. -/
theorem tiled_image_x_overrun :
    (genloop 64 4 1 tile2 0 4 0 1).map (fun it => (it.x, it.y, it.read))
      = [(0, 0, some (0, 1)), (1, 0, some (1, 1)), (2, 0, some (2, 1)), (3, 0, some (0, 1))]
    ∧ 2 % tile2.img_width = 0 ∧ 3 % tile2.img_width = 1 := by
  decide

/-! ## The iterations of the loops -/

theorem mem_for_rows (row : Nat → List Iter) (it : Iter) :
    ∀ (n y0 : Nat), it ∈ for_rows row n y0 → ∃ y, y0 ≤ y ∧ y < y0 + n ∧ it ∈ row y := by
  intro n
  induction n with
  | zero => intro y0 h; simp [for_rows] at h
  | succ n ih =>
    intro y0 h
    rw [for_rows, List.mem_append] at h
    rcases h with h | h
    · exact ⟨y0, le_refl _, by omega, h⟩
    · obtain ⟨y, h1, h2, h3⟩ := ih (y0 + 1) h
      exact ⟨y, by omega, by omega, h3⟩

theorem wrap_lt (bits n : Nat) : wrap bits n < 2 ^ bits :=
  Nat.mod_lt _ (Nat.pos_pow_of_pos _ (by norm_num))

theorem wrap_add_wrap (bits a b : Nat) : wrap bits (wrap bits a + b) = wrap bits (a + b) := by
  unfold wrap
  rw [Nat.mod_add_mod]

theorem mem_stretched_inner (bits : Nat) (bg : image) (y row off ratio : Nat) (it : Iter) :
    ∀ (n x0 img_x : Nat), it ∈ stretched_inner bits bg y row off ratio n x0 img_x →
      ∃ k, k < n ∧ it.x = x0 + k ∧ it.y = y
        ∧ it.read = some (fixedp6_to_int (if k = 0 then img_x else wrap bits (img_x + k * ratio)),
            row)
        ∧ it.src = image_read bits bg
            (fixedp6_to_int (if k = 0 then img_x else wrap bits (img_x + k * ratio))) off := by
  intro n
  induction n with
  | zero => intro x0 img_x h; simp [stretched_inner] at h
  | succ n ih =>
    intro x0 img_x h
    rw [stretched_inner, List.mem_cons] at h
    rcases h with h | h
    · subst h
      exact ⟨0, by omega, rfl, rfl, rfl, rfl⟩
    · obtain ⟨k, hk, h1, h2, h3, h4⟩ := ih (x0 + 1) _ h
      have e : (if k = 0 then wrap bits (img_x + ratio)
          else wrap bits (wrap bits (img_x + ratio) + k * ratio))
          = wrap bits (img_x + (k + 1) * ratio) := by
        split_ifs with hk0
        · subst hk0; simp
        · rw [wrap_add_wrap, Nat.add_mul, Nat.one_mul]
          congr 1
          omega
      rw [e] at h3 h4
      refine ⟨k + 1, by omega, by omega, h2, ?_, ?_⟩
      · simpa using h3
      · simpa using h4

/-- In the stretched layout the iteration of the destination pixel `x` reads the
column `fixedp6_to_int (ratio * x)` (product on `size_t`), whatever `xstart`. -/
theorem mem_stretched_row (bits fb_w fb_h : Nat) (bg : image) (xstart xend y : Nat) (it : Iter)
    (h : it ∈ stretched_row bits fb_w fb_h bg xstart xend y) :
    it.y = y ∧ xstart ≤ it.x ∧ it.x < xend
    ∧ it.read = some (fixedp6_to_int (wrap bits (stretched_ratio bits fb_w bg * it.x)),
        subw bits (subw bits bg.img_height 1) (stretched_img_y bits fb_h bg y)) := by
  unfold stretched_row at h
  obtain ⟨k, hk, h1, h2, h3, -⟩ := mem_stretched_inner _ _ _ _ _ _ _ _ _ _ h
  refine ⟨h2, by omega, by omega, ?_⟩
  rw [h3, h1]
  congr 2
  split_ifs with hk0
  · subst hk0; simp
  · rw [wrap_add_wrap, Nat.mul_add, Nat.mul_comm k]

/-! ## C6: the corners of the stretched layout -/

theorem last_row_lt (ih H : Nat) (hih : 1 ≤ ih) (hH : 1 ≤ H) : (H - 1) * ih / H < ih := by
  rw [Nat.div_lt_iff_lt_mul (by omega)]
  obtain ⟨h, rfl⟩ : ∃ h, H = h + 1 := ⟨H - 1, by omega⟩
  simp only [Nat.add_sub_cancel]
  rw [Nat.mul_comm ih, Nat.add_mul]
  omega

theorem last_row_eq_iff (ih H : Nat) (hih : 1 ≤ ih) (hH : 1 ≤ H) :
    (H - 1) * ih / H = ih - 1 ↔ ih ≤ H := by
  have hlt := last_row_lt ih H hih hH
  have hle : ih - 1 ≤ (H - 1) * ih / H ↔ (ih - 1) * H ≤ (H - 1) * ih :=
    Nat.le_div_iff_mul_le (by omega)
  generalize (H - 1) * ih / H = q at hlt hle ⊢
  obtain ⟨k, rfl⟩ : ∃ k, H = k + 1 := ⟨H - 1, by omega⟩
  obtain ⟨i, rfl⟩ : ∃ i, ih = i + 1 := ⟨ih - 1, by omega⟩
  simp only [Nat.add_sub_cancel] at hle ⊢
  have e1 : i * (k + 1) = i * k + i := by ring
  have e2 : k * (i + 1) = i * k + k := by ring
  rw [e1, e2] at hle
  constructor
  · intro heq
    have := hle.1 (by omega)
    omega
  · intro hi
    have := hle.2 (by omega)
    omega

theorem last_column_lt (iw W : Nat) (hiw : 1 ≤ iw) (hW : 1 ≤ W) :
    iw * 64 / W * (W - 1) / 64 < iw := by
  rw [Nat.div_lt_iff_lt_mul (by norm_num)]
  have h1 : iw * 64 / W * W ≤ iw * 64 := Nat.div_mul_le_self _ _
  generalize iw * 64 / W = r at h1 ⊢
  obtain ⟨w, rfl⟩ : ∃ w, W = w + 1 := ⟨W - 1, by omega⟩
  simp only [Nat.add_sub_cancel]
  rw [Nat.mul_add, Nat.mul_one] at h1
  by_cases hr : r = 0
  · subst hr; omega
  · omega

theorem last_column_eq (iw W : Nat) (hiw : 1 ≤ iw) (hle : iw ≤ W) (hdvd : W ∣ 64 * iw) :
    iw * 64 / W * (W - 1) / 64 = iw - 1 := by
  have hW : 1 ≤ W := by omega
  have hlt := last_column_lt iw W hiw hW
  have h1 : iw * 64 / W * W = iw * 64 := by
    rw [Nat.mul_comm iw 64]
    exact Nat.div_mul_cancel hdvd
  have h2 : iw * 64 / W ≤ 64 := by
    apply Nat.div_le_of_le_mul
    omega
  have h3 : iw - 1 ≤ iw * 64 / W * (W - 1) / 64 ↔ (iw - 1) * 64 ≤ iw * 64 / W * (W - 1) :=
    Nat.le_div_iff_mul_le (by norm_num)
  generalize iw * 64 / W * (W - 1) / 64 = c at hlt h3 ⊢
  generalize iw * 64 / W = r at h1 h2 h3
  obtain ⟨w, rfl⟩ : ∃ w, W = w + 1 := ⟨W - 1, by omega⟩
  simp only [Nat.add_sub_cancel] at h3
  rw [Nat.mul_add, Nat.mul_one] at h1
  have := h3.2 (by omega)
  omega

/-- C6, as stated, fails: for the 4 x 4 image `stretch4` on a 2 x 2
framebuffer, the destination pixel `(1, 1) = (width - 1, height - 1)` samples
source row `img_y = 2` (stored row `4 - 1 - 2 = 1`) and source column 2, not
source row 3 and source column 3. -/
theorem stretched_corner_counterexample :
    (genloop 64 2 2 stretch4 0 2 0 2).map (fun it => (it.x, it.y, it.read))
      = [(0, 0, some (0, 3)), (1, 0, some (2, 3)), (0, 1, some (0, 1)), (1, 1, some (2, 1))]
    ∧ stretched_img_y 64 2 stretch4 1 = 2
    ∧ stretch4.img_height - 1 = 3 ∧ stretch4.img_width - 1 = 3 := by
  decide

/-- C6, amended: in the stretched layout, for an image and a framebuffer of
positive sizes and absent `size_t` overflow, on a scanline starting at
`xstart = 0`: the destination pixel `(0, 0)` samples source row 0 and source
column 0; the destination pixel `(width - 1, height - 1)` samples source row
`((height - 1) * image_height) / height`, which is at most `image_height - 1`
and equals it exactly when `image_height ≤ height`, and source column
`(ratio * (width - 1)) / 64` with `ratio = (image_width * 64) / width`, which
is at most `image_width - 1` and equals it when `image_width ≤ width` and
`width` divides `64 * image_width`.  Over the whole framebuffer both pixels are
visited exactly once. -/
theorem stretched_corners (bits W H : Nat) (bg : image) (xend ystart yend : Nat)
    (htype : bg.type = .IMAGE_STRETCHED)
    (hiw : 1 ≤ bg.img_width) (hih : 1 ≤ bg.img_height) (hW : 1 ≤ W) (hH : 1 ≤ H)
    (ov1 : bg.img_width * 64 < 2 ^ bits) (ov2 : H * bg.img_height < 2 ^ bits) :
    (∀ it ∈ genloop bits W H bg 0 xend ystart yend,
      (it.x = 0 → it.y = 0 →
        stretched_img_y bits H bg it.y = 0 ∧ it.read = some (0, bg.img_height - 1 - 0))
      ∧ (it.x = W - 1 → it.y = H - 1 →
        stretched_img_y bits H bg it.y = (H - 1) * bg.img_height / H
        ∧ it.read = some (bg.img_width * 64 / W * (W - 1) / 64,
                          bg.img_height - 1 - (H - 1) * bg.img_height / H)))
    ∧ (H - 1) * bg.img_height / H ≤ bg.img_height - 1
    ∧ ((H - 1) * bg.img_height / H = bg.img_height - 1 ↔ bg.img_height ≤ H)
    ∧ bg.img_width * 64 / W * (W - 1) / 64 ≤ bg.img_width - 1
    ∧ (bg.img_width ≤ W → W ∣ 64 * bg.img_width →
        bg.img_width * 64 / W * (W - 1) / 64 = bg.img_width - 1)
    ∧ visits 0 0 (genloop bits W H bg 0 W 0 H) = 1
    ∧ visits (W - 1) (H - 1) (genloop bits W H bg 0 W 0 H) = 1 := by
  have hrow := last_row_lt bg.img_height H hih hH
  have hcol := last_column_lt bg.img_width W hiw hW
  have hih_lt : bg.img_height < 2 ^ bits := by
    have : 1 * bg.img_height ≤ H * bg.img_height := Nat.mul_le_mul_right _ hH
    omega
  have hratio : stretched_ratio bits W bg = bg.img_width * 64 / W := by
    unfold stretched_ratio int_to_fixedp6
    rw [wrap_eq _ _ ov1]
  have hsub1 : subw bits bg.img_height 1 = bg.img_height - 1 := subw_eq _ _ _ hih_lt hih
  refine ⟨?_, by omega, last_row_eq_iff _ _ hih hH, by omega,
    fun h1 h2 => last_column_eq _ _ hiw h1 h2, ?_, ?_⟩
  · intro it hit
    unfold genloop at hit
    rw [htype] at hit
    simp only at hit
    obtain ⟨y, -, -, hy⟩ := mem_for_rows _ _ _ _ hit
    obtain ⟨h1, -, -, h4⟩ := mem_stretched_row _ _ _ _ _ _ _ _ hy
    subst h1
    rw [hratio, hsub1] at h4
    refine ⟨?_, ?_⟩
    · intro hx0 hy0
      have e : stretched_img_y bits H bg it.y = 0 := by
        unfold stretched_img_y wrap
        rw [hy0]; simp
      refine ⟨e, ?_⟩
      rw [h4, e, hx0, subw_eq _ _ _ (by omega) (by omega)]
      simp [wrap, fixedp6_to_int]
    · intro hx1 hy1
      have hm : (H - 1) * bg.img_height < 2 ^ bits := by
        have : (H - 1) * bg.img_height ≤ H * bg.img_height :=
          Nat.mul_le_mul_right _ (by omega)
        omega
      have e : stretched_img_y bits H bg it.y = (H - 1) * bg.img_height / H := by
        unfold stretched_img_y
        rw [hy1, wrap_eq _ _ hm]
      have hm2 : bg.img_width * 64 / W * (W - 1) < 2 ^ bits := by
        have h1 : bg.img_width * 64 / W * (W - 1) ≤ bg.img_width * 64 / W * W :=
          Nat.mul_le_mul_left _ (by omega)
        have h2 : bg.img_width * 64 / W * W ≤ bg.img_width * 64 := Nat.div_mul_le_self _ _
        omega
      refine ⟨e, ?_⟩
      rw [h4, e, hx1, subw_eq _ _ _ (by omega) (by omega), wrap_eq _ _ hm2]
      rfl
  · rw [visits_genloop]
    split_ifs <;> omega
  · rw [visits_genloop]
    split_ifs <;> omega

theorem stretched_corners_witness :
    stretch4.type = .IMAGE_STRETCHED ∧ 1 ≤ stretch4.img_width ∧ 1 ≤ stretch4.img_height
    ∧ 1 ≤ 8 ∧ 1 ≤ 8 ∧ stretch4.img_width * 64 < 2 ^ 64 ∧ 8 * stretch4.img_height < 2 ^ 64
    ∧ visits (8 - 1) (8 - 1) (genloop 64 8 8 stretch4 0 8 0 8) = 1 :=
  ⟨rfl, by decide, by decide, by decide, by decide, by decide, by decide,
    (stretched_corners 64 8 8 stretch4 8 0 8 rfl (by decide) (by decide) (by decide)
      (by decide) (by decide) (by decide)).2.2.2.2.2.2⟩

/-! ## The stores of a call -/

/-- When every callback value is defined, the stores of a sequence of
iterations succeed; a canvas cell holds `v` afterwards if every iteration that
stores to the cell stores `v` and either there is such an iteration or the
cell held `v` before. -/
theorem store_all_get (bits : Nat) (g : canvas_globals) (f : blend_fn) :
    ∀ (its : List Iter) (c : Nat → Nat),
      (∀ it ∈ its, (apply_blend bits g f it.x it.y it.src).isSome = true) →
      ∃ c1, store_all bits g f its c = some c1
        ∧ ∀ idx v,
          (∀ it ∈ its, canvas_index bits g.fb_w it.x it.y = idx →
            apply_blend bits g f it.x it.y it.src = some v) →
          (c idx = v ∨ ∃ it ∈ its, canvas_index bits g.fb_w it.x it.y = idx) →
          c1 idx = v := by
  intro its
  induction its with
  | nil =>
    intro c _
    refine ⟨c, rfl, ?_⟩
    intro idx v _ h
    rcases h with h | ⟨it, hit, _⟩
    · exact h
    · simp at hit
  | cons it rest ih =>
    intro c hdef
    have hsome := hdef it (List.mem_cons_self _ _)
    obtain ⟨v0, hv0⟩ := Option.isSome_iff_exists.1 hsome
    obtain ⟨c1, hc1, hget⟩ := ih (Function.update c (canvas_index bits g.fb_w it.x it.y) v0)
      (fun it1 h1 => hdef it1 (List.mem_cons_of_mem _ h1))
    refine ⟨c1, ?_, ?_⟩
    · rw [store_all, hv0]
      exact hc1
    · intro idx v hall hex
      apply hget idx v (fun it1 h1 => hall it1 (List.mem_cons_of_mem _ h1))
      by_cases hidx : canvas_index bits g.fb_w it.x it.y = idx
      · left
        have := hall it (List.mem_cons_self _ _) hidx
        rw [hv0] at this
        rw [← hidx, Function.update_same]
        exact Option.some.inj this
      · rcases hex with h | ⟨it1, h1, h2⟩
        · left
          rw [Function.update_noteq (Ne.symm hidx)]
          exact h
        · rcases List.mem_cons.1 h1 with h3 | h3
          · subst h3; exact absurd h2 hidx
          · exact Or.inr ⟨it1, h3, h2⟩

theorem canvas_index_eq (bits fb_w x y : Nat) (h : fb_w * y + x < 2 ^ bits) :
    canvas_index bits fb_w x y = fb_w * y + x := by
  unfold canvas_index
  rw [wrap_eq _ (fb_w * y) (by omega), wrap_eq _ _ h]

theorem mem_of_visits_pos (x y : Nat) (l : List Iter) (h : 0 < visits x y l) :
    ∃ it ∈ l, it.x = x ∧ it.y = y := by
  unfold visits at h
  rw [List.countP_pos_iff] at h
  obtain ⟨it, hit, hxy⟩ := h
  simp only [Bool.and_eq_true, decide_eq_true_eq] at hxy
  exact ⟨it, hit, hxy⟩

theorem mem_genloop_bounds (bits fb_w fb_h : Nat) (bg : image) (xstart xend ystart yend : Nat)
    (it : Iter) (h : it ∈ genloop bits fb_w fb_h bg xstart xend ystart yend) :
    xstart ≤ it.x ∧ it.x < xend ∧ ystart ≤ it.y ∧ it.y < yend := by
  have hpos := visits_pos_of_mem it _ h
  rw [visits_genloop] at hpos
  by_contra hc
  rw [if_neg hc] at hpos
  omega

/-! ## C7: the backdrop of the centered layout -/

theorem mem_centered_external_inner (bg : image) (y : Nat) (it : Iter) :
    ∀ (n x0 : Nat), it ∈ centered_external_inner bg y n x0 →
      it.y = y ∧ it.src = bg.back_colour := by
  intro n
  induction n with
  | zero => intro x0 h; simp [centered_external_inner] at h
  | succ n ih =>
    intro x0 h
    rw [centered_external_inner, List.mem_cons] at h
    rcases h with h | h
    · subst h; exact ⟨rfl, rfl⟩
    · exact ih _ h

theorem mem_centered_internal_inner (bits : Nat) (bg : image) (y row off : Nat) (it : Iter) :
    ∀ (n x0 : Nat), it ∈ centered_internal_inner bits bg y row off n x0 →
      it.y = y
      ∧ it.read = some (subw bits it.x bg.x_displacement, row)
      ∧ it.src = if subw bits it.x bg.x_displacement ≥ bg.x_size then bg.back_colour
          else image_read bits bg (subw bits it.x bg.x_displacement) off := by
  intro n
  induction n with
  | zero => intro x0 h; simp [centered_internal_inner] at h
  | succ n ih =>
    intro x0 h
    rw [centered_internal_inner, List.mem_cons] at h
    rcases h with h | h
    · subst h
      refine ⟨rfl, rfl, ?_⟩
      simp only [decide_eq_true_eq]
    · exact ih _ h

theorem subw_ge_of_lt (bits a b s : Nat) (hab : a < b) (hs : b + s < 2 ^ bits) :
    subw bits a b ≥ s := by
  unfold subw
  rw [Nat.mod_eq_of_lt (show a < 2 ^ bits by omega),
    Nat.mod_eq_of_lt (show b < 2 ^ bits by omega),
    Nat.mod_eq_of_lt (show a + (2 ^ bits - b) < 2 ^ bits by omega)]
  omega

/-- The source value of an iteration of the centered layout outside the image
area. -/
theorem centered_src_outside (bits fb_w fb_h : Nat) (bg : image)
    (xstart xend ystart yend : Nat)
    (htype : bg.type = .IMAGE_CENTERED)
    (hxend : xend < 2 ^ bits) (hyend : yend < 2 ^ bits)
    (hxsum : bg.x_displacement + bg.x_size < 2 ^ bits)
    (hysum : bg.y_displacement + bg.y_size < 2 ^ bits)
    (it : Iter) (hit : it ∈ genloop bits fb_w fb_h bg xstart xend ystart yend)
    (hout : it.x < bg.x_displacement ∨ bg.x_displacement + bg.x_size ≤ it.x
      ∨ it.y < bg.y_displacement ∨ bg.y_displacement + bg.y_size ≤ it.y) :
    it.src = bg.back_colour := by
  have hb := mem_genloop_bounds _ _ _ _ _ _ _ _ _ hit
  unfold genloop at hit
  rw [htype] at hit
  simp only at hit
  obtain ⟨y, -, -, hy⟩ := mem_for_rows _ _ _ _ hit
  unfold centered_row at hy
  simp only at hy
  split at hy
  · exact (mem_centered_external_inner _ _ _ _ _ hy).2
  · rename_i hrow
    obtain ⟨h1, -, h3⟩ := mem_centered_internal_inner _ _ _ _ _ _ _ _ hy
    subst h1
    have hyin : bg.y_displacement ≤ it.y ∧ it.y < bg.y_displacement + bg.y_size := by
      by_contra hc
      apply hrow
      by_cases hlt : it.y < bg.y_displacement
      · exact subw_ge_of_lt _ _ _ _ hlt hysum
      · rw [subw_eq _ _ _ (by omega) (by omega)]
        omega
    have hx : subw bits it.x bg.x_displacement ≥ bg.x_size := by
      by_cases hlt : it.x < bg.x_displacement
      · exact subw_ge_of_lt _ _ _ _ hlt hxsum
      · rw [subw_eq _ _ _ (by omega) (by omega)]
        omega
    rw [h3, if_pos hx]

/-- C7: in the centered layout, for every image content, every iteration of
`genloop` whose destination pixel `(x, y)` has `x` outside
`[x_displacement, x_displacement + x_size)` or `y` outside
`[y_displacement, y_displacement + y_size)` (sums representable) hands the
backdrop colour `back_colour` to the blend callback; and after `loop_external`
over a rectangle inside the canvas, the canvas cell of every such pixel of the
rectangle holds `back_colour`. -/
theorem centered_outside_is_backdrop (bits : Nat) (g : canvas_globals) (bg : image)
    (xstart xend ystart yend : Nat)
    (htype : bg.type = .IMAGE_CENTERED)
    (hxe : xend < 2 ^ bits) (hye : yend < 2 ^ bits)
    (hxsum : bg.x_displacement + bg.x_size < 2 ^ bits)
    (hysum : bg.y_displacement + bg.y_size < 2 ^ bits) :
    (∀ it ∈ genloop bits g.fb_w g.fb_h bg xstart xend ystart yend,
      (it.x < bg.x_displacement ∨ bg.x_displacement + bg.x_size ≤ it.x
        ∨ it.y < bg.y_displacement ∨ bg.y_displacement + bg.y_size ≤ it.y) →
      it.src = bg.back_colour)
    ∧ (xend ≤ g.fb_w → g.fb_w * yend < 2 ^ bits →
      ∀ c : Nat → Nat, ∃ c1,
        store_all bits g .blend_external
          (genloop bits g.fb_w g.fb_h bg xstart xend ystart yend) c = some c1
        ∧ ∀ x y, xstart ≤ x → x < xend → ystart ≤ y → y < yend →
          (x < bg.x_displacement ∨ bg.x_displacement + bg.x_size ≤ x
            ∨ y < bg.y_displacement ∨ bg.y_displacement + bg.y_size ≤ y) →
          c1 (g.fb_w * y + x) = bg.back_colour) := by
  have hsrc := centered_src_outside bits g.fb_w g.fb_h bg xstart xend ystart yend htype hxe hye
    hxsum hysum
  refine ⟨fun it hit hout => hsrc it hit hout, ?_⟩
  intro hxend hcanvas
  have hidx : ∀ x y, x < xend → y < yend → g.fb_w * y + x < 2 ^ bits := by
    intro x y hx hy
    have h1 : g.fb_w * (y + 1) ≤ g.fb_w * yend := Nat.mul_le_mul_left _ (by omega)
    rw [Nat.mul_add, Nat.mul_one] at h1
    omega
  intro c
  obtain ⟨c1, hc1, hget⟩ := store_all_get bits g .blend_external
    (genloop bits g.fb_w g.fb_h bg xstart xend ystart yend) c (fun _ _ => rfl)
  refine ⟨c1, hc1, ?_⟩
  intro x y hx1 hx2 hy1 hy2 hout
  apply hget
  · intro it hit hi
    have hb := mem_genloop_bounds _ _ _ _ _ _ _ _ _ hit
    rw [canvas_index_eq _ _ _ _ (hidx _ _ hb.2.1 hb.2.2.2)] at hi
    have hxy : it.x = x ∧ it.y = y := by
      have hfw : 0 < g.fb_w := by omega
      have hxw : it.x < g.fb_w := by omega
      have hxw2 : x < g.fb_w := by omega
      have e1 : (g.fb_w * it.y + it.x) / g.fb_w = it.y := by
        rw [Nat.mul_add_div hfw, Nat.div_eq_of_lt hxw, Nat.add_zero]
      have e2 : (g.fb_w * y + x) / g.fb_w = y := by
        rw [Nat.mul_add_div hfw, Nat.div_eq_of_lt hxw2, Nat.add_zero]
      have e3 : it.y = y := by rw [← e1, ← e2, hi]
      rw [e3] at hi
      exact ⟨by omega, e3⟩
    have := hsrc it hit (by rw [hxy.1, hxy.2]; exact hout)
    simp only [apply_blend, this]
  · right
    have hv : 0 < visits x y (genloop bits g.fb_w g.fb_h bg xstart xend ystart yend) := by
      rw [visits_genloop, if_pos ⟨hx1, hx2, hy1, hy2⟩]
      omega
    obtain ⟨it, hit, h1, h2⟩ := mem_of_visits_pos _ _ _ hv
    refine ⟨it, hit, ?_⟩
    rw [h1, h2]
    exact canvas_index_eq _ _ _ _ (hidx _ _ hx2 hy2)

theorem centered_outside_is_backdrop_witness :
    center2.type = .IMAGE_CENTERED ∧ 8 < 2 ^ 64 ∧ 8 < 2 ^ 64
    ∧ center2.x_displacement + center2.x_size < 2 ^ 64
    ∧ center2.y_displacement + center2.y_size < 2 ^ 64
    ∧ ∀ it ∈ genloop 64 8 8 center2 0 8 0 8,
      (it.x < center2.x_displacement ∨ center2.x_displacement + center2.x_size ≤ it.x
        ∨ it.y < center2.y_displacement ∨ center2.y_displacement + center2.y_size ≤ it.y) →
      it.src = center2.back_colour :=
  ⟨rfl, by decide, by decide, by decide, by decide,
    (centered_outside_is_backdrop 64 ⟨8, 8, 0, 0, 0⟩ center2 0 8 0 8 rfl (by decide)
      (by decide) (by decide) (by decide)).1⟩

/-! ## C8: when the gradient leaves the background pixel -/

/-- C8, as stated, fails: on a 100 x 100 framebuffer with margin 10 and
gradient 4, at the pixel `(50, 8)` the distance is `2 ≤ 4`, and with the base
colour `0x80000000` over the background pixel `0x00000000` the blended value is
`0x00000000`, the background pixel itself. -/
theorem blend_gradient_counterexample :
    gradient_distance 64 100 100 10 50 8 = 2
    ∧ ¬ (gradient_distance 64 100 100 10 50 8 > 4)
    ∧ blend_gradient_from_box 64 100 100 10 4 50 8 0x00000000 0x80000000
        = some 0x00000000 := by
  decide

/-- C8, amended: for `margin_gradient > 0` and `distance` as computed by
`blend_gradient_from_box`: if `distance > margin_gradient` the function returns
`bg_px` unmodified; if `distance ≤ margin_gradient` it returns the blend of the
base colour with the substituted alpha over `bg_px`, whose alpha byte is 0; so
for a `bg_px` with a non-zero alpha byte the result is `bg_px` if and only if
`distance > margin_gradient`. -/
theorem blend_gradient_from_box_cases (bits fb_w fb_h margin margin_gradient x y bg_px hex : Nat)
    (hmg : 0 < margin_gradient) :
    (gradient_distance bits fb_w fb_h margin x y > margin_gradient →
      blend_gradient_from_box bits fb_w fb_h margin margin_gradient x y bg_px hex = some bg_px)
    ∧ (gradient_distance bits fb_w fb_h margin x y ≤ margin_gradient →
      blend_gradient_from_box bits fb_w fb_h margin margin_gradient x y bg_px hex
        = some (colour_blend
            ((hex &&& 0xffffff) |||
              ((new_alpha bits margin_gradient hex
                  (gradient_distance bits fb_w fb_h margin x y) <<< 24) % 2 ^ 32))
            bg_px))
    ∧ (A bg_px ≠ 0 →
      (blend_gradient_from_box bits fb_w fb_h margin margin_gradient x y bg_px hex = some bg_px
        ↔ gradient_distance bits fb_w fb_h margin x y > margin_gradient)) := by
  have hne : margin_gradient ≠ 0 := by omega
  have hgt : gradient_distance bits fb_w fb_h margin x y > margin_gradient →
      blend_gradient_from_box bits fb_w fb_h margin margin_gradient x y bg_px hex
        = some bg_px := by
    intro h
    unfold blend_gradient_from_box
    simp only [h, if_true]
  have hle : gradient_distance bits fb_w fb_h margin x y ≤ margin_gradient →
      blend_gradient_from_box bits fb_w fb_h margin margin_gradient x y bg_px hex
        = some (colour_blend
            ((hex &&& 0xffffff) |||
              ((new_alpha bits margin_gradient hex
                  (gradient_distance bits fb_w fb_h margin x y) <<< 24) % 2 ^ 32))
            bg_px) := by
    intro h
    unfold blend_gradient_from_box
    simp only [show ¬ (gradient_distance bits fb_w fb_h margin x y > margin_gradient) by omega,
      hne, if_false]
  refine ⟨hgt, hle, ?_⟩
  intro ha
  constructor
  · intro heq
    by_contra hc
    rw [hle (by omega)] at heq
    have h0 := (colour_blend_bytes
      ((hex &&& 0xffffff) |||
        ((new_alpha bits margin_gradient hex
            (gradient_distance bits fb_w fb_h margin x y) <<< 24) % 2 ^ 32)) bg_px).1
    rw [Option.some.inj heq] at h0
    exact ha h0
  · exact hgt

theorem blend_gradient_from_box_cases_witness :
    0 < 4
    ∧ (A 0xff203040 ≠ 0 →
      (blend_gradient_from_box 64 100 100 10 4 50 8 0xff203040 0x80000000 = some 0xff203040
        ↔ gradient_distance 64 100 100 10 50 8 > 4)) :=
  ⟨by decide,
    (blend_gradient_from_box_cases 64 100 100 10 4 50 8 0xff203040 0x80000000 (by decide)).2.2⟩

/-! ## C9: the margins without a wallpaper -/

/-- C9, as stated, fails: with the only configuration key `TERM_MARGIN=10`
there is no wallpaper, yet the resolved margin and the margin handed to the
text renderer are 10. -/
theorem margin_without_wallpaper_counterexample :
    (gterm_init_theme 64 margin_only_env).background.isNone = true
    ∧ (gterm_init_theme 64 margin_only_env).margin = 10
    ∧ (gterm_init_theme 64 margin_only_env).margin_gradient = 0
    ∧ fbterm_init_margin 64 margin_only_env = 10 := by
  decide

/-- C9, amended: if no wallpaper image is present after loading, the theme
resolution ends with `margin` equal to the value of `TERM_MARGIN` when that key
is present and 0 otherwise, and with `margin_gradient` equal to the value of
`TERM_MARGIN_GRADIENT` when that key is present and 0 otherwise; the margin
handed to the text renderer is that `margin`.  In particular both are 0 when
neither key is present. -/
theorem margins_without_wallpaper (bits : Nat) (e : theme_env)
    (hno : (gterm_init_theme bits e).background = none) :
    (gterm_init_theme bits e).margin
      = (match e.config_get_value "TERM_MARGIN" with
         | some v => wrap bits (e.strtoui v 10)
         | none => 0)
    ∧ (gterm_init_theme bits e).margin_gradient
      = (match e.config_get_value "TERM_MARGIN_GRADIENT" with
         | some v => wrap bits (e.strtoui v 10)
         | none => 0)
    ∧ fbterm_init_margin bits e = (gterm_init_theme bits e).margin
    ∧ (e.config_get_value "TERM_MARGIN" = none →
        e.config_get_value "TERM_MARGIN_GRADIENT" = none →
        (gterm_init_theme bits e).margin = 0 ∧ (gterm_init_theme bits e).margin_gradient = 0
        ∧ fbterm_init_margin bits e = 0) := by
  have hb : (match e.config_get_value "TERM_WALLPAPER" with
      | some background_path =>
        match e.uri_open background_path with
        | some bg_file => e.image_open bg_file
        | none => none
      | none => none) = none := hno
  have hm : (gterm_init_theme bits e).margin
      = (match e.config_get_value "TERM_MARGIN" with
         | some v => wrap bits (e.strtoui v 10)
         | none => 0) := by
    simp only [gterm_init_theme, hb, Option.isNone_none, if_true]
  have hg : (gterm_init_theme bits e).margin_gradient
      = (match e.config_get_value "TERM_MARGIN_GRADIENT" with
         | some v => wrap bits (e.strtoui v 10)
         | none => 0) := by
    simp only [gterm_init_theme, hb, Option.isNone_none, if_true]
  refine ⟨hm, hg, rfl, ?_⟩
  intro h1 h2
  rw [h1] at hm
  rw [h2] at hg
  exact ⟨hm, hg, hm⟩

theorem margins_without_wallpaper_witness :
    (gterm_init_theme 64 margin_only_env).background = none
    ∧ fbterm_init_margin 64 margin_only_env = (gterm_init_theme 64 margin_only_env).margin :=
  ⟨rfl, (margins_without_wallpaper 64 margin_only_env rfl).2.2.1⟩

/-! ## C10: the reinit gate on unchanged and changed parameters -/

theorem gate_of_blocked (s : gate_globals) (config width height : Nat)
    (hq : s.quiet = false) (ha : s.allocations_disallowed = false)
    (h1 : ¬ (width = 0 ∧ height = 0 ∧ s.fbinfo.framebuffer_bpp = 32
              ∧ s.serial = s.last_serial ∧ config = s.last_config))
    (h2 : ¬ (s.fbinfo.framebuffer_width = width ∧ s.fbinfo.framebuffer_height = height
              ∧ s.fbinfo.framebuffer_bpp = 32 ∧ s.serial = s.last_serial
              ∧ config = s.last_config)) :
    gterm_init_gate s config width height = none := by
  unfold gterm_init_gate
  rw [hq, ha]
  simp only [Bool.or_self, Bool.false_eq_true, if_false, Bool.and_eq_true, beq_iff_eq]
  rw [if_neg (by tauto), if_neg (by tauto)]

/-- C10: with a video mode active on a framebuffer and output not suppressed,
when the requested width and height equal the active ones, the bit depth is
32, the serial flag equals `last_serial` and the configuration pointer equals
`last_config`, the gate returns `true` without rebuilding; and from such a
state, with non-zero framebuffer dimensions, changing any single one of the
requested or active width, the requested or active height, the bit depth, the
serial flag (or `last_serial`) or the configuration pointer (or `last_config`)
makes the gate fall through to the rebuild. -/
theorem reinit_gate_same_and_changed (s : gate_globals) (config width height : Nat)
    (hq : s.quiet = false) (ha : s.allocations_disallowed = false)
    (hv : video_mode_active s = true)
    (hw : s.fbinfo.framebuffer_width = width) (hh : s.fbinfo.framebuffer_height = height)
    (hbpp : s.fbinfo.framebuffer_bpp = 32)
    (hser : s.serial = s.last_serial) (hcfg : config = s.last_config)
    (hwpos : 0 < width) (hhpos : 0 < height) :
    gterm_init_gate s config width height = some true
    ∧ (∀ w1, w1 ≠ width → gterm_init_gate s config w1 height = none)
    ∧ (∀ h1, h1 ≠ height → gterm_init_gate s config width h1 = none)
    ∧ (∀ w1, w1 ≠ width →
        gterm_init_gate { s with fbinfo := { s.fbinfo with framebuffer_width := w1 } }
          config width height = none)
    ∧ (∀ h1, h1 ≠ height →
        gterm_init_gate { s with fbinfo := { s.fbinfo with framebuffer_height := h1 } }
          config width height = none)
    ∧ (∀ b1, b1 ≠ 32 →
        gterm_init_gate { s with fbinfo := { s.fbinfo with framebuffer_bpp := b1 } }
          config width height = none)
    ∧ gterm_init_gate { s with serial := !s.serial } config width height = none
    ∧ gterm_init_gate { s with last_serial := !s.last_serial } config width height = none
    ∧ (∀ c1, c1 ≠ config → gterm_init_gate s c1 width height = none)
    ∧ (∀ c1, c1 ≠ s.last_config →
        gterm_init_gate { s with last_config := c1 } config width height = none) := by
  refine ⟨?_, ?_, ?_, ?_, ?_, ?_, ?_, ?_, ?_, ?_⟩
  · unfold gterm_init_gate
    rw [hq, ha, hv, hw, hh, hbpp, hser, hcfg]
    simp
  · intro w1 hw1
    apply gate_of_blocked s config w1 height hq ha
    · intro h; omega
    · intro h; exact hw1 (by rw [← h.1, hw])
  · intro h1 hh1
    apply gate_of_blocked s config width h1 hq ha
    · intro h; omega
    · intro h; exact hh1 (by rw [← h.2.1, hh])
  · intro w1 hw1
    apply gate_of_blocked
    · exact hq
    · exact ha
    · intro h; omega
    · intro h; exact hw1 h.1
  · intro h1 hh1
    apply gate_of_blocked
    · exact hq
    · exact ha
    · intro h; omega
    · intro h; exact hh1 h.2.1
  · intro b1 hb1
    apply gate_of_blocked
    · exact hq
    · exact ha
    · intro h; exact hb1 h.2.2.1
    · intro h; exact hb1 h.2.2.1
  · apply gate_of_blocked
    · exact hq
    · exact ha
    · intro h
      have := h.2.2.2.1
      simp only at this
      rw [← hser] at this
      cases hs : s.serial <;> rw [hs] at this <;> simp at this
    · intro h
      have := h.2.2.2.1
      simp only at this
      rw [← hser] at this
      cases hs : s.serial <;> rw [hs] at this <;> simp at this
  · apply gate_of_blocked
    · exact hq
    · exact ha
    · intro h
      have := h.2.2.2.1
      simp only at this
      rw [← hser] at this
      cases hs : s.serial <;> rw [hs] at this <;> simp at this
    · intro h
      have := h.2.2.2.1
      simp only at this
      rw [← hser] at this
      cases hs : s.serial <;> rw [hs] at this <;> simp at this
  · intro c1 hc1
    apply gate_of_blocked s c1 width height hq ha
    · intro h; exact hc1 (by rw [h.2.2.2.2, hcfg])
    · intro h; exact hc1 (by rw [h.2.2.2.2, hcfg])
  · intro c1 hc1
    apply gate_of_blocked
    · exact hq
    · exact ha
    · intro h
      have := h.2.2.2.2
      simp only at this
      exact hc1 (by rw [← this, hcfg])
    · intro h
      have := h.2.2.2.2
      simp only at this
      exact hc1 (by rw [← this, hcfg])

theorem reinit_gate_same_and_changed_witness :
    active_state.quiet = false ∧ active_state.allocations_disallowed = false
    ∧ video_mode_active active_state = true
    ∧ active_state.fbinfo.framebuffer_width = 1024
    ∧ active_state.fbinfo.framebuffer_height = 768
    ∧ active_state.fbinfo.framebuffer_bpp = 32
    ∧ active_state.serial = active_state.last_serial ∧ 0x1000 = active_state.last_config
    ∧ 0 < 1024 ∧ 0 < 768
    ∧ gterm_init_gate active_state 0x1000 1024 768 = some true :=
  ⟨rfl, rfl, by decide, rfl, rfl, rfl, rfl, rfl, by decide, by decide,
    (reinit_gate_same_and_changed active_state 0x1000 1024 768 rfl rfl (by decide) rfl rfl rfl
      rfl rfl (by decide) (by decide)).1⟩

/-! ## C11 and C12: the alpha substituted by the gradient -/

theorem gradient_step_eq (bits margin_gradient hex : Nat) (hbits : bits = 32 ∨ bits = 64) :
    gradient_step bits margin_gradient hex = (255 - A hex) / margin_gradient := by
  unfold gradient_step wrap
  have h1 : (0xff - A hex) / margin_gradient ≤ 0xff - A hex := Nat.div_le_self _ _
  rcases hbits with rfl | rfl
  · rw [Nat.mod_eq_of_lt (show 0xff - A hex < 2 ^ 32 by omega), Nat.mod_eq_of_lt (by omega)]
  · rw [Nat.mod_eq_of_lt (show 0xff - A hex < 2 ^ 64 by omega), Nat.mod_eq_of_lt (by omega)]

theorem step_mul_le (a margin_gradient d : Nat) (hd : d ≤ margin_gradient) :
    (255 - a) / margin_gradient * d ≤ 255 - a := by
  have h1 : (255 - a) / margin_gradient * d ≤ (255 - a) / margin_gradient * margin_gradient :=
    Nat.mul_le_mul_left _ hd
  have h2 : (255 - a) / margin_gradient * margin_gradient ≤ 255 - a := Nat.div_mul_le_self _ _
  omega

/-- Within the gradient the two 8-bit stores lose nothing: `new_alpha` is
`A + ((255 - A) / margin_gradient) * distance`, at most 255. -/
theorem new_alpha_eq (bits margin_gradient hex d : Nat) (hbits : bits = 32 ∨ bits = 64)
    (hd : d ≤ margin_gradient) :
    new_alpha bits margin_gradient hex d = A hex + (255 - A hex) / margin_gradient * d
    ∧ A hex + (255 - A hex) / margin_gradient * d ≤ 255 := by
  have ha := A_lt hex
  have hs := step_mul_le (A hex) margin_gradient d hd
  unfold new_alpha
  rw [gradient_step_eq bits margin_gradient hex hbits]
  unfold wrap
  refine ⟨?_, by omega⟩
  rcases hbits with rfl | rfl
  · rw [Nat.mod_eq_of_lt (show (255 - A hex) / margin_gradient * d < 2 ^ 32 by omega),
      Nat.mod_eq_of_lt (show A hex + (255 - A hex) / margin_gradient * d < 2 ^ 32 by omega),
      Nat.mod_eq_of_lt (by omega)]
  · rw [Nat.mod_eq_of_lt (show (255 - A hex) / margin_gradient * d < 2 ^ 64 by omega),
      Nat.mod_eq_of_lt (show A hex + (255 - A hex) / margin_gradient * d < 2 ^ 64 by omega),
      Nat.mod_eq_of_lt (by omega)]

/-- C11, as stated, fails: for the base colour `0x80000000` and a gradient of 4
the substituted alpha is 128 at distance 0 and 159 at distance 1, so it grows
with the distance. -/
theorem new_alpha_counterexample :
    0 < 4 ∧ (0 : Nat) ≤ 1 ∧ 1 ≤ 4
    ∧ new_alpha 64 4 0x80000000 0 = 128 ∧ new_alpha 64 4 0x80000000 1 = 159
    ∧ ¬ (new_alpha 64 4 0x80000000 1 ≤ new_alpha 64 4 0x80000000 0) := by
  decide

/-- C11, amended: for a fixed base colour and `margin_gradient > 0`, the alpha
byte that `blend_gradient_from_box` substitutes is monotonically
non-decreasing in the distance over `0 ≤ distance ≤ margin_gradient` (the
alpha byte is a transparency, so the weight `255 - new_alpha` of the base
colour is non-increasing). -/
theorem new_alpha_monotone (bits margin_gradient hex d1 d2 : Nat)
    (hbits : bits = 32 ∨ bits = 64) (_hmg : 0 < margin_gradient)
    (h12 : d1 ≤ d2) (h2 : d2 ≤ margin_gradient) :
    new_alpha bits margin_gradient hex d1 ≤ new_alpha bits margin_gradient hex d2
    ∧ 255 - new_alpha bits margin_gradient hex d2 ≤ 255 - new_alpha bits margin_gradient hex d1 := by
  have e1 := (new_alpha_eq bits margin_gradient hex d1 hbits (by omega)).1
  have e2 := (new_alpha_eq bits margin_gradient hex d2 hbits h2).1
  have hm : (255 - A hex) / margin_gradient * d1 ≤ (255 - A hex) / margin_gradient * d2 :=
    Nat.mul_le_mul_left _ h12
  rw [e1, e2]
  omega

theorem new_alpha_monotone_witness :
    (64 = 32 ∨ 64 = 64) ∧ 0 < 4 ∧ 1 ≤ 3 ∧ 3 ≤ 4
    ∧ new_alpha 64 4 0x80000000 1 ≤ new_alpha 64 4 0x80000000 3 :=
  ⟨Or.inr rfl, by decide, by decide, by decide,
    (new_alpha_monotone 64 4 0x80000000 1 3 (Or.inr rfl) (by decide) (by decide)
      (by decide)).1⟩

theorem substituted_colour_eq (hex a : Nat) (ha : a < 256) :
    (hex &&& 0xffffff) ||| ((a <<< 24) % 2 ^ 32) = 2 ^ 24 * a + hex % 2 ^ 24 := by
  have e1 : hex &&& 0xffffff = hex % 2 ^ 24 := by
    have := Nat.and_pow_two_sub_one_eq_mod hex 24
    norm_num at this
    rw [this]; norm_num
  have e2 : (a <<< 24) % 2 ^ 32 = 2 ^ 24 * a := by
    rw [Nat.shiftLeft_eq, Nat.mod_eq_of_lt (by omega), Nat.mul_comm]
  rw [e1, e2, Nat.or_comm, ← Nat.mul_add_lt_is_or (Nat.mod_lt _ (by norm_num))]

/-- The four bytes of the base colour with a substituted alpha byte. -/
theorem substituted_colour_bytes (hex a : Nat) (ha : a < 256) :
    A ((hex &&& 0xffffff) ||| ((a <<< 24) % 2 ^ 32)) = a
    ∧ R ((hex &&& 0xffffff) ||| ((a <<< 24) % 2 ^ 32)) = R hex
    ∧ G ((hex &&& 0xffffff) ||| ((a <<< 24) % 2 ^ 32)) = G hex
    ∧ B ((hex &&& 0xffffff) ||| ((a <<< 24) % 2 ^ 32)) = B hex := by
  rw [substituted_colour_eq hex a ha]
  unfold A R G B
  simp only [Nat.shiftRight_eq_div_pow]
  refine ⟨?_, ?_, ?_, ?_⟩ <;> omega

/-- C12: for every base colour `hex` with alpha byte `A`, every
`margin_gradient > 0` and every pixel whose distance is at most
`margin_gradient`, `blend_gradient_from_box` returns `colour_blend c bg_px`
where `c` has the red, green and blue bytes of `hex` and the alpha byte
`A + ((255 - A) / margin_gradient) * distance`; that value is at most 255, and
the 8-bit stores of `gradient_step` and `new_alpha` lose nothing. -/
theorem blend_gradient_substitutes_alpha
    (bits fb_w fb_h margin margin_gradient x y bg_px hex : Nat)
    (hbits : bits = 32 ∨ bits = 64) (hmg : 0 < margin_gradient)
    (hd : gradient_distance bits fb_w fb_h margin x y ≤ margin_gradient) :
    ∃ c, blend_gradient_from_box bits fb_w fb_h margin margin_gradient x y bg_px hex
          = some (colour_blend c bg_px)
      ∧ R c = R hex ∧ G c = G hex ∧ B c = B hex
      ∧ A c = A hex + (255 - A hex) / margin_gradient
                * gradient_distance bits fb_w fb_h margin x y
      ∧ A hex + (255 - A hex) / margin_gradient
                * gradient_distance bits fb_w fb_h margin x y ≤ 255
      ∧ gradient_step bits margin_gradient hex = (255 - A hex) / margin_gradient
      ∧ new_alpha bits margin_gradient hex (gradient_distance bits fb_w fb_h margin x y)
          = A hex + (255 - A hex) / margin_gradient
                * gradient_distance bits fb_w fb_h margin x y := by
  obtain ⟨e, hle⟩ := new_alpha_eq bits margin_gradient hex
    (gradient_distance bits fb_w fb_h margin x y) hbits hd
  have hlt : new_alpha bits margin_gradient hex (gradient_distance bits fb_w fb_h margin x y)
      < 256 := by omega
  obtain ⟨b1, b2, b3, b4⟩ := substituted_colour_bytes hex _ hlt
  refine ⟨(hex &&& 0xffffff) |||
      ((new_alpha bits margin_gradient hex (gradient_distance bits fb_w fb_h margin x y)
          <<< 24) % 2 ^ 32), ?_, b2, b3, b4, by rw [b1, e], hle,
      gradient_step_eq bits margin_gradient hex hbits, e⟩
  unfold blend_gradient_from_box
  simp only [show ¬ (gradient_distance bits fb_w fb_h margin x y > margin_gradient) by omega,
    show margin_gradient ≠ 0 by omega, if_false]

theorem blend_gradient_substitutes_alpha_witness :
    (64 = 32 ∨ 64 = 64) ∧ 0 < 4 ∧ gradient_distance 64 100 100 10 50 8 ≤ 4
    ∧ ∃ c, blend_gradient_from_box 64 100 100 10 4 50 8 0x00ffffff 0x80102030
          = some (colour_blend c 0x00ffffff)
      ∧ R c = R 0x80102030 ∧ G c = G 0x80102030 ∧ B c = B 0x80102030
      ∧ A c = A 0x80102030 + (255 - A 0x80102030) / 4 * gradient_distance 64 100 100 10 50 8
      ∧ A 0x80102030 + (255 - A 0x80102030) / 4 * gradient_distance 64 100 100 10 50 8 ≤ 255
      ∧ gradient_step 64 4 0x80102030 = (255 - A 0x80102030) / 4
      ∧ new_alpha 64 4 0x80102030 (gradient_distance 64 100 100 10 50 8)
          = A 0x80102030 + (255 - A 0x80102030) / 4 * gradient_distance 64 100 100 10 50 8 :=
  ⟨Or.inr rfl, by decide, by decide,
    blend_gradient_substitutes_alpha 64 100 100 10 4 50 8 0x00ffffff 0x80102030 (Or.inr rfl)
      (by decide) (by decide)⟩

/-! ## C19: the range of a blended channel -/

theorem channel_sum_le (a t b : Nat) (ha : a < 256) (ht : t < 256) (hb : b < 256) :
    (255 - a) * t + (a + 1) * b ≤ 255 * 256 := by
  have h1 : (255 - a) * t ≤ (255 - a) * 255 := Nat.mul_le_mul_left _ (by omega)
  have h2 : (a + 1) * b ≤ (a + 1) * 255 := Nat.mul_le_mul_left _ (by omega)
  have h3 : (255 - a) * 255 + (a + 1) * 255 = 256 * 255 := by
    rw [← Nat.add_mul]; congr 1; omega
  omega

theorem channel_between (a t b : Nat) (ha : a < 256) :
    min t b ≤ ((255 - a) * t + (a + 1) * b) / 256
    ∧ ((255 - a) * t + (a + 1) * b) / 256 ≤ max t b := by
  have hlo1 : (255 - a) * min t b ≤ (255 - a) * t := Nat.mul_le_mul_left _ (min_le_left _ _)
  have hlo2 : (a + 1) * min t b ≤ (a + 1) * b := Nat.mul_le_mul_left _ (min_le_right _ _)
  have hhi1 : (255 - a) * t ≤ (255 - a) * max t b := Nat.mul_le_mul_left _ (le_max_left _ _)
  have hhi2 : (a + 1) * b ≤ (a + 1) * max t b := Nat.mul_le_mul_left _ (le_max_right _ _)
  have elo : (255 - a) * min t b + (a + 1) * min t b = 256 * min t b := by
    rw [← Nat.add_mul]; congr 1; omega
  have ehi : (255 - a) * max t b + (a + 1) * max t b = 256 * max t b := by
    rw [← Nat.add_mul]; congr 1; omega
  constructor
  · rw [Nat.le_div_iff_mul_le (by norm_num)]
    omega
  · apply Nat.div_le_of_le_mul
    omega

/-- C19: for all colours `top` and `bottom`, with `a` the alpha byte of `top`,
each weighted sum `(255 - a) * top_channel + (a + 1) * bottom_channel` is at
most `255 * 256`, so the `uint8_t` cast truncates nothing (the channel of the
result is the quotient by 256 itself), and each channel of the result lies
between the minimum and the maximum of the two input channels. -/
theorem colour_blend_channel_range (top bottom : Nat) :
    ((255 - A top) * R top + (A top + 1) * R bottom ≤ 255 * 256
      ∧ ((255 - A top) * R top + (A top + 1) * R bottom) / 256 < 256
      ∧ R (colour_blend top bottom) = ((255 - A top) * R top + (A top + 1) * R bottom) / 256
      ∧ min (R top) (R bottom) ≤ R (colour_blend top bottom)
      ∧ R (colour_blend top bottom) ≤ max (R top) (R bottom))
    ∧ ((255 - A top) * G top + (A top + 1) * G bottom ≤ 255 * 256
      ∧ ((255 - A top) * G top + (A top + 1) * G bottom) / 256 < 256
      ∧ G (colour_blend top bottom) = ((255 - A top) * G top + (A top + 1) * G bottom) / 256
      ∧ min (G top) (G bottom) ≤ G (colour_blend top bottom)
      ∧ G (colour_blend top bottom) ≤ max (G top) (G bottom))
    ∧ ((255 - A top) * B top + (A top + 1) * B bottom ≤ 255 * 256
      ∧ ((255 - A top) * B top + (A top + 1) * B bottom) / 256 < 256
      ∧ B (colour_blend top bottom) = ((255 - A top) * B top + (A top + 1) * B bottom) / 256
      ∧ min (B top) (B bottom) ≤ B (colour_blend top bottom)
      ∧ B (colour_blend top bottom) ≤ max (B top) (B bottom)) := by
  obtain ⟨-, hr, hg, hb⟩ := colour_blend_bytes top bottom
  have ha := A_lt top
  rw [hr, hg, hb]
  refine ⟨⟨channel_sum_le _ _ _ ha (R_lt top) (R_lt bottom),
      channel_lt _ _ _ ha (R_lt top) (R_lt bottom), rfl,
      (channel_between _ _ _ ha).1, (channel_between _ _ _ ha).2⟩,
    ⟨channel_sum_le _ _ _ ha (G_lt top) (G_lt bottom),
      channel_lt _ _ _ ha (G_lt top) (G_lt bottom), rfl,
      (channel_between _ _ _ ha).1, (channel_between _ _ _ ha).2⟩,
    ⟨channel_sum_le _ _ _ ha (B_lt top) (B_lt bottom),
      channel_lt _ _ _ ha (B_lt top) (B_lt bottom), rfl,
      (channel_between _ _ _ ha).1, (channel_between _ _ _ ha).2⟩⟩

/-! ## C14: the accumulator of the stretched layout -/

theorem stretched_img_x_shift (bits ratio a : Nat) :
    ∀ k, stretched_img_x bits ratio (wrap bits (a + ratio)) k
      = stretched_img_x bits ratio a (k + 1) := by
  intro k
  induction k with
  | zero => rfl
  | succ k ih =>
    rw [stretched_img_x, ih]
    rfl

theorem stretched_img_x_wrap (bits ratio xstart : Nat) :
    ∀ k, stretched_img_x bits ratio (wrap bits (ratio * xstart)) k
      = wrap bits (ratio * (xstart + k)) := by
  intro k
  induction k with
  | zero => rfl
  | succ k ih =>
    rw [stretched_img_x, ih, wrap_add_wrap]
    congr 1

theorem mem_stretched_inner_acc (bits : Nat) (bg : image) (y row off ratio : Nat) (it : Iter) :
    ∀ (n x0 img_x : Nat), it ∈ stretched_inner bits bg y row off ratio n x0 img_x →
      x0 ≤ it.x
      ∧ it.read = some (fixedp6_to_int (stretched_img_x bits ratio img_x (it.x - x0)), row) := by
  intro n
  induction n with
  | zero => intro x0 img_x h; simp [stretched_inner] at h
  | succ n ih =>
    intro x0 img_x h
    rw [stretched_inner, List.mem_cons] at h
    rcases h with h | h
    · subst h
      simp [stretched_img_x]
    · obtain ⟨h1, h2⟩ := ih (x0 + 1) _ h
      refine ⟨by omega, ?_⟩
      rw [h2, stretched_img_x_shift]
      have e : it.x - (x0 + 1) + 1 = it.x - x0 := by omega
      rw [e]

theorem stretched_inner_eq_direct (bits fb_w fb_h : Nat) (bg : image) (y : Nat) :
    ∀ (n x0 : Nat), (∀ k, k < n → stretched_ratio bits fb_w bg * (x0 + k) < 2 ^ bits) →
      stretched_inner bits bg y
          (subw bits (subw bits bg.img_height 1) (stretched_img_y bits fb_h bg y))
          (wrap bits (bg.pitch
            * subw bits (subw bits bg.img_height 1) (stretched_img_y bits fb_h bg y)))
          (stretched_ratio bits fb_w bg) n x0 (wrap bits (stretched_ratio bits fb_w bg * x0))
        = direct_inner (fun x => stretched_pixel bits fb_w fb_h bg x y) n x0 := by
  intro n
  induction n with
  | zero => intro x0 _; rfl
  | succ n ih =>
    intro x0 hov
    have h0 := hov 0 (by omega)
    rw [Nat.add_zero] at h0
    rw [stretched_inner, direct_inner, wrap_add_wrap]
    have e : stretched_ratio bits fb_w bg * x0 + stretched_ratio bits fb_w bg
        = stretched_ratio bits fb_w bg * (x0 + 1) := by
      rw [Nat.mul_add, Nat.mul_one]
    rw [e, ih (x0 + 1) (fun k hk => by
      have := hov (k + 1) (by omega)
      rw [show x0 + 1 + k = x0 + (k + 1) by omega]
      exact this)]
    congr 1
    simp only [stretched_pixel, wrap_eq _ _ h0]

theorem mem_direct_inner (f : Nat → Iter) (it : Iter) :
    ∀ (n x0 : Nat), it ∈ direct_inner f n x0 → ∃ x, x0 ≤ x ∧ x < x0 + n ∧ it = f x := by
  intro n
  induction n with
  | zero => intro x0 h; simp [direct_inner] at h
  | succ n ih =>
    intro x0 h
    rw [direct_inner, List.mem_cons] at h
    rcases h with h | h
    · exact ⟨x0, le_refl _, by omega, h⟩
    · obtain ⟨x, h1, h2, h3⟩ := ih _ h
      exact ⟨x, by omega, by omega, h3⟩

theorem genloop_stretched_eq (bits fb_w fb_h : Nat) (bg : image)
    (xstart xend ystart yend : Nat) (htype : bg.type = .IMAGE_STRETCHED)
    (hov : stretched_ratio bits fb_w bg * xend < 2 ^ bits) :
    genloop bits fb_w fb_h bg xstart xend ystart yend
      = genloop_stretched_direct bits fb_w fb_h bg xstart xend ystart yend := by
  unfold genloop genloop_stretched_direct
  rw [htype]
  simp only
  congr 1
  funext y
  unfold stretched_row
  simp only
  apply stretched_inner_eq_direct
  intro k hk
  have : stretched_ratio bits fb_w bg * (xstart + k) ≤ stretched_ratio bits fb_w bg * xend :=
    Nat.mul_le_mul_left _ (by omega)
  omega

theorem mem_genloop_stretched_direct (bits fb_w fb_h : Nat) (bg : image)
    (xstart xend ystart yend : Nat) (it : Iter)
    (h : it ∈ genloop_stretched_direct bits fb_w fb_h bg xstart xend ystart yend) :
    it = stretched_pixel bits fb_w fb_h bg it.x it.y := by
  unfold genloop_stretched_direct at h
  obtain ⟨y, -, -, hy⟩ := mem_for_rows _ _ _ _ h
  obtain ⟨x, -, -, hx⟩ := mem_direct_inner _ _ _ _ hy
  rw [hx]
  rfl

/-- C14: in the stretched layout, with `ratio = int_to_fixedp6(image_width) /
framebuffer_width`, for every rectangle start `xstart`: the accumulator `img_x`
after `k` increments is `ratio * (xstart + k)` reduced to a `size_t`, hence
`ratio * x` at the pixel `x = xstart + k` absent overflow; every iteration of
`genloop` reads the column given by that accumulator, which is
`(ratio * x) / 64`; the incremental loop produces exactly the iterations of the
direct per-pixel computation; and the iteration of a pixel does not depend on
`xstart`. -/
theorem stretched_incremental_is_direct (bits W H : Nat) (bg : image)
    (xstart xend ystart yend : Nat) (htype : bg.type = .IMAGE_STRETCHED)
    (hov : stretched_ratio bits W bg * xend < 2 ^ bits) :
    stretched_ratio bits W bg = int_to_fixedp6 bits bg.img_width / W
    ∧ (∀ k, xstart + k < xend →
        stretched_img_x bits (stretched_ratio bits W bg)
            (wrap bits (stretched_ratio bits W bg * xstart)) k
          = stretched_ratio bits W bg * (xstart + k))
    ∧ (∀ it ∈ genloop bits W H bg xstart xend ystart yend,
        xstart ≤ it.x ∧ it.x < xend
        ∧ it.read = some (fixedp6_to_int
              (stretched_img_x bits (stretched_ratio bits W bg)
                (wrap bits (stretched_ratio bits W bg * xstart)) (it.x - xstart)),
            subw bits (subw bits bg.img_height 1) (stretched_img_y bits H bg it.y))
        ∧ it.read = some (stretched_ratio bits W bg * it.x / 64,
            subw bits (subw bits bg.img_height 1) (stretched_img_y bits H bg it.y))
        ∧ it = stretched_pixel bits W H bg it.x it.y)
    ∧ genloop bits W H bg xstart xend ystart yend
        = genloop_stretched_direct bits W H bg xstart xend ystart yend
    ∧ (∀ xstart2, ∀ it ∈ genloop bits W H bg xstart xend ystart yend,
        ∀ it2 ∈ genloop bits W H bg xstart2 xend ystart yend,
        it.x = it2.x → it.y = it2.y → it = it2) := by
  have hacc : ∀ k, xstart + k < xend →
      stretched_img_x bits (stretched_ratio bits W bg)
          (wrap bits (stretched_ratio bits W bg * xstart)) k
        = stretched_ratio bits W bg * (xstart + k) := by
    intro k hk
    rw [stretched_img_x_wrap]
    apply wrap_eq
    have : stretched_ratio bits W bg * (xstart + k) ≤ stretched_ratio bits W bg * xend :=
      Nat.mul_le_mul_left _ (by omega)
    omega
  have hpix : ∀ xs, ∀ it ∈ genloop bits W H bg xs xend ystart yend,
      it = stretched_pixel bits W H bg it.x it.y := by
    intro xs it hit
    rw [genloop_stretched_eq bits W H bg xs xend ystart yend htype hov] at hit
    exact mem_genloop_stretched_direct _ _ _ _ _ _ _ _ _ hit
  refine ⟨rfl, hacc, ?_, genloop_stretched_eq bits W H bg xstart xend ystart yend htype hov, ?_⟩
  · intro it hit
    have hb := mem_genloop_bounds _ _ _ _ _ _ _ _ _ hit
    have hp := hpix xstart it hit
    have hit2 := hit
    unfold genloop at hit2
    rw [htype] at hit2
    simp only at hit2
    obtain ⟨y, -, -, hy⟩ := mem_for_rows _ _ _ _ hit2
    have hy2 := hy
    obtain ⟨h1, -, -, -⟩ := mem_stretched_row _ _ _ _ _ _ _ _ hy
    unfold stretched_row at hy2
    obtain ⟨-, h5⟩ := mem_stretched_inner_acc _ _ _ _ _ _ _ _ _ _ hy2
    subst h1
    refine ⟨hb.1, hb.2.1, h5, ?_, hp⟩
    rw [h5, hacc (it.x - xstart) (by omega)]
    have e : xstart + (it.x - xstart) = it.x := by omega
    rw [e]
    rfl
  · intro xstart2 it hit it2 hit2 hx hy
    rw [hpix xstart it hit, hpix xstart2 it2 hit2, hx, hy]

theorem stretched_incremental_is_direct_witness :
    stretch4.type = .IMAGE_STRETCHED ∧ stretched_ratio 64 8 stretch4 * 8 < 2 ^ 64
    ∧ genloop 64 8 8 stretch4 3 8 0 8 = genloop_stretched_direct 64 8 8 stretch4 3 8 0 8 :=
  ⟨rfl, by decide,
    (stretched_incremental_is_direct 64 8 8 stretch4 3 8 0 8 rfl (by decide)).2.2.2.1⟩

/-! ## C20: the stretched layout samples inside the image -/

theorem column_lt (iw W x : Nat) (hiw : 1 ≤ iw) (hx : x < W) :
    iw * 64 / W * x / 64 < iw := by
  have h1 := last_column_lt iw W hiw (by omega)
  have h2 : iw * 64 / W * x ≤ iw * 64 / W * (W - 1) := Nat.mul_le_mul_left _ (by omega)
  have h3 : iw * 64 / W * x / 64 ≤ iw * 64 / W * (W - 1) / 64 := Nat.div_le_div_right h2
  omega

theorem row_lt (ih H y : Nat) (hih : 1 ≤ ih) (hy : y < H) : y * ih / H < ih := by
  rw [Nat.div_lt_iff_lt_mul (by omega)]
  have h1 : (y + 1) * ih ≤ H * ih := Nat.mul_le_mul_right _ (by omega)
  rw [Nat.add_mul, Nat.one_mul] at h1
  rw [Nat.mul_comm ih H]
  omega

/-- C20: in the stretched layout, for an image and a framebuffer of positive
sizes and absent `size_t` overflow, every iteration of `genloop` over a
rectangle inside the framebuffer reads the source column
`fixedp6_to_int (ratio * x) < image_width` and the source row
`img_y = (y * image_height) / height < image_height`; the stored row
`image_height - 1 - img_y` is computed without wrap-around and is below
`image_height`. -/
theorem stretched_sampling_in_bounds (bits W H : Nat) (bg : image)
    (xstart xend ystart yend : Nat) (htype : bg.type = .IMAGE_STRETCHED)
    (hiw : 1 ≤ bg.img_width) (hih : 1 ≤ bg.img_height) (_hW : 1 ≤ W) (hH : 1 ≤ H)
    (hxend : xend ≤ W) (hyend : yend ≤ H)
    (ov1 : bg.img_width * 64 < 2 ^ bits) (ov2 : H * bg.img_height < 2 ^ bits) :
    ∀ it ∈ genloop bits W H bg xstart xend ystart yend,
      it.x < W ∧ it.y < H
      ∧ stretched_ratio bits W bg = bg.img_width * 64 / W
      ∧ stretched_img_y bits H bg it.y = it.y * bg.img_height / H
      ∧ it.y * bg.img_height / H < bg.img_height
      ∧ subw bits (subw bits bg.img_height 1) (stretched_img_y bits H bg it.y)
          = bg.img_height - 1 - it.y * bg.img_height / H
      ∧ fixedp6_to_int (stretched_ratio bits W bg * it.x) < bg.img_width
      ∧ it.read = some (fixedp6_to_int (stretched_ratio bits W bg * it.x),
          bg.img_height - 1 - it.y * bg.img_height / H)
      ∧ bg.img_height - 1 - it.y * bg.img_height / H < bg.img_height := by
  intro it hit
  have hb := mem_genloop_bounds _ _ _ _ _ _ _ _ _ hit
  have hxW : it.x < W := by omega
  have hyH : it.y < H := by omega
  have hih_lt : bg.img_height < 2 ^ bits := by
    have : 1 * bg.img_height ≤ H * bg.img_height := Nat.mul_le_mul_right _ hH
    omega
  have hratio : stretched_ratio bits W bg = bg.img_width * 64 / W := by
    unfold stretched_ratio int_to_fixedp6
    rw [wrap_eq _ _ ov1]
  have hym : it.y * bg.img_height < 2 ^ bits := by
    have : it.y * bg.img_height ≤ H * bg.img_height := Nat.mul_le_mul_right _ (by omega)
    omega
  have himgy : stretched_img_y bits H bg it.y = it.y * bg.img_height / H := by
    unfold stretched_img_y
    rw [wrap_eq _ _ hym]
  have hrow := row_lt bg.img_height H it.y hih hyH
  have hcol := column_lt bg.img_width W it.x hiw hxW
  have hsub : subw bits (subw bits bg.img_height 1) (stretched_img_y bits H bg it.y)
      = bg.img_height - 1 - it.y * bg.img_height / H := by
    rw [himgy, subw_eq _ _ _ hih_lt hih, subw_eq _ _ _ (by omega) (by omega)]
  have hxm : bg.img_width * 64 / W * it.x < 2 ^ bits := by
    have h1 : bg.img_width * 64 / W * it.x ≤ bg.img_width * 64 / W * W :=
      Nat.mul_le_mul_left _ (by omega)
    have h2 : bg.img_width * 64 / W * W ≤ bg.img_width * 64 := Nat.div_mul_le_self _ _
    omega
  unfold genloop at hit
  rw [htype] at hit
  simp only at hit
  obtain ⟨y, -, -, hy⟩ := mem_for_rows _ _ _ _ hit
  obtain ⟨h1, -, -, h4⟩ := mem_stretched_row _ _ _ _ _ _ _ _ hy
  subst h1
  rw [hsub, hratio, wrap_eq _ _ hxm] at h4
  refine ⟨hxW, hyH, hratio, himgy, hrow, hsub, ?_, ?_, by omega⟩
  · rw [hratio]; exact hcol
  · rw [hratio]; exact h4

theorem stretched_sampling_in_bounds_witness :
    stretch4.type = .IMAGE_STRETCHED ∧ 1 ≤ stretch4.img_width ∧ 1 ≤ stretch4.img_height
    ∧ 1 ≤ 3 ∧ 1 ≤ 3 ∧ 3 ≤ 3 ∧ 3 ≤ 3
    ∧ stretch4.img_width * 64 < 2 ^ 64 ∧ 3 * stretch4.img_height < 2 ^ 64
    ∧ ∀ it ∈ genloop 64 3 3 stretch4 0 3 0 3,
      it.x < 3 ∧ it.y < 3
      ∧ stretched_ratio 64 3 stretch4 = stretch4.img_width * 64 / 3
      ∧ stretched_img_y 64 3 stretch4 it.y = it.y * stretch4.img_height / 3
      ∧ it.y * stretch4.img_height / 3 < stretch4.img_height
      ∧ subw 64 (subw 64 stretch4.img_height 1) (stretched_img_y 64 3 stretch4 it.y)
          = stretch4.img_height - 1 - it.y * stretch4.img_height / 3
      ∧ fixedp6_to_int (stretched_ratio 64 3 stretch4 * it.x) < stretch4.img_width
      ∧ it.read = some (fixedp6_to_int (stretched_ratio 64 3 stretch4 * it.x),
          stretch4.img_height - 1 - it.y * stretch4.img_height / 3)
      ∧ stretch4.img_height - 1 - it.y * stretch4.img_height / 3 < stretch4.img_height :=
  ⟨rfl, by decide, by decide, by decide, by decide, by decide, by decide, by decide, by decide,
    stretched_sampling_in_bounds 64 3 3 stretch4 0 3 0 3 rfl (by decide) (by decide) (by decide)
      (by decide) (by decide) (by decide) (by decide) (by decide)⟩

/-! ## C16: the resolved margins -/

/-- C17, as stated, fails: in the state `active_state` (video mode active,
32 bits, serial flag and configuration pointer unchanged, `default_res` false)
a request of width 0 and height 0 meets condition (a) of the claim, yet the
gate falls through to the rebuild. -/
theorem reinit_gate_counterexample :
    active_state.quiet = false ∧ active_state.allocations_disallowed = false
    ∧ video_mode_active active_state = true
    ∧ active_state.fbinfo.framebuffer_bpp = 32
    ∧ active_state.serial = active_state.last_serial
    ∧ 0x1000 = active_state.last_config
    ∧ active_state.fbinfo.default_res = false
    ∧ gterm_init_gate active_state 0x1000 0 0 = none := by
  decide

/-- C17, amended: when output is not suppressed, the gate returns `true`
without rebuilding if and only if either (a) a valid video mode is active
(`current_video_mode >= 0`, and not mode `0x03` on a BIOS build),
`fbinfo.default_res` is set, the requested width and height are both 0, the
framebuffer has 32 bits, the serial flag equals `last_serial` and the
configuration pointer equals `last_config`, or (b) a valid video mode is
active, the requested width and height equal the active ones, the framebuffer
has 32 bits, the serial flag equals `last_serial` and the configuration
pointer equals `last_config`; otherwise it falls through to the rebuild. -/
theorem reinit_gate_iff (s : gate_globals) (config width height : Nat)
    (hq : s.quiet = false) (ha : s.allocations_disallowed = false) :
    (gterm_init_gate s config width height = some true ↔
      (video_mode_active s = true ∧ s.fbinfo.default_res = true ∧ width = 0 ∧ height = 0
        ∧ s.fbinfo.framebuffer_bpp = 32 ∧ s.serial = s.last_serial
        ∧ config = s.last_config)
      ∨ (video_mode_active s = true ∧ s.fbinfo.framebuffer_width = width
        ∧ s.fbinfo.framebuffer_height = height ∧ s.fbinfo.framebuffer_bpp = 32
        ∧ s.serial = s.last_serial ∧ config = s.last_config))
    ∧ (gterm_init_gate s config width height ≠ some true →
        gterm_init_gate s config width height = none)
    ∧ (video_mode_active s = true ↔
        (s.current_video_mode ≥ 0 ∧ (s.bios = true → s.current_video_mode ≠ 0x03))) := by
  refine ⟨?_, ?_, ?_⟩
  · unfold gterm_init_gate
    rw [hq, ha]
    simp only [Bool.or_self, Bool.false_eq_true, if_false, Bool.and_eq_true, beq_iff_eq]
    constructor
    · intro h
      split_ifs at h with h1 h2
      · left; tauto
      · right; tauto
    · intro h
      rcases h with h | h
      · rw [if_pos (by tauto)]
      · split_ifs with h1 h2
        · rfl
        · rfl
        · exact absurd (by tauto) h2
  · unfold gterm_init_gate
    rw [hq, ha]
    simp only [Bool.or_self, Bool.false_eq_true, if_false]
    intro h
    split_ifs at h ⊢ <;> simp_all
  · unfold video_mode_active
    simp only [Bool.and_eq_true, Bool.or_eq_true, Bool.not_eq_true', decide_eq_true_eq]
    constructor
    · rintro ⟨h1, h2⟩
      refine ⟨h1, ?_⟩
      intro hb
      rcases h2 with h2 | h2
      · rw [hb] at h2; exact absurd h2 (by decide)
      · exact h2
    · rintro ⟨h1, h2⟩
      refine ⟨h1, ?_⟩
      cases hb : s.bios
      · left; rfl
      · right; exact h2 hb

theorem reinit_gate_iff_witness :
    active_state.quiet = false ∧ active_state.allocations_disallowed = false
    ∧ (gterm_init_gate active_state 0x1000 0 0 ≠ some true →
        gterm_init_gate active_state 0x1000 0 0 = none) :=
  ⟨rfl, rfl, (reinit_gate_iff active_state 0x1000 0 0 rfl rfl).2.1⟩

/-! ## C18: the clamp of the no-gradient margin -/

/-- The clamp is exact for every margin and gradient under a 32-bit `size_t`,
and under a 64-bit `size_t` for values below `2 ^ 63`. -/
theorem margin_no_gradient_exact (bits margin margin_gradient : Nat)
    (h : (bits = 32 ∧ margin < 2 ^ 32 ∧ margin_gradient < 2 ^ 32)
      ∨ (bits = 64 ∧ margin < 2 ^ 63 ∧ margin_gradient < 2 ^ 63)) :
    margin_no_gradient bits margin margin_gradient
      = if margin_gradient ≤ margin then ((margin - margin_gradient : Nat) : Int) else 0 := by
  unfold margin_no_gradient
  rcases h with ⟨rfl, -, -⟩ | ⟨rfl, hm, hg⟩
  · simp only [show (32 : Nat) < 64 by norm_num, if_true]
    split_ifs <;> omega
  · simp only [show ¬ ((64 : Nat) < 64) by norm_num, if_false]
    have hv : subw 64 margin margin_gradient
        = if margin_gradient ≤ margin then margin - margin_gradient
          else 18446744073709551616 - (margin_gradient - margin) := by
      unfold subw
      norm_num at hm hg ⊢
      split_ifs <;> omega
    generalize subw 64 margin margin_gradient = v at hv
    unfold to_int64
    norm_num at hm hg ⊢
    by_cases hle : margin_gradient ≤ margin
    · rw [if_pos hle] at hv
      rw [if_pos hle]
      have e2 : v % 18446744073709551616 = v := by omega
      rw [e2]
      split_ifs <;> omega
    · rw [if_neg hle] at hv
      rw [if_neg hle]
      have e2 : v % 18446744073709551616 = v := by omega
      rw [e2]
      split_ifs <;> omega

/-- C18 (defect of the code): under a 64-bit `size_t`, with `margin = 0` and
`margin_gradient = 2 ^ 63 + 1` the subtraction of line 160 is an unsigned one
and its result `2 ^ 63 - 1` is a positive `int64_t`, so the clamp of lines
162-164 does not fire and the outer strips use `2 ^ 63 - 1` instead of 0; and
with `margin = 2 ^ 63`, `margin_gradient = 0` the result is negative and is
clamped to 0 instead of `margin - margin_gradient`.  Under a 32-bit `size_t`
the same line gives 0 for `margin = 0`, `margin_gradient = 2 ^ 31 + 1`. -/
theorem margin_no_gradient_wraps :
    ¬ (2 ^ 63 + 1 ≤ 0)
    ∧ margin_no_gradient 64 0 (2 ^ 63 + 1) = 2 ^ 63 - 1
    ∧ to_size_t 64 (margin_no_gradient 64 0 (2 ^ 63 + 1)) = 2 ^ 63 - 1
    ∧ margin_no_gradient 64 (2 ^ 63) 0 = 0
    ∧ margin_no_gradient 32 0 (2 ^ 31 + 1) = 0 := by
  decide

/-! ## The canvas after `generate_canvas` -/

theorem mem_run_iters (bits : Nat) (g : canvas_globals) (bg : image) (it : Iter) :
    ∀ calls : List loop_call,
      it ∈ run_iters bits g bg calls ↔ ∃ k ∈ calls, it ∈ call_iters bits g bg k := by
  intro calls
  induction calls with
  | nil => simp [run_iters]
  | cons k ks ih =>
    rw [run_iters, List.mem_append, ih]
    constructor
    · rintro (h | ⟨k1, hk1, h⟩)
      · exact ⟨k, List.mem_cons_self _ _, h⟩
      · exact ⟨k1, List.mem_cons_of_mem _ hk1, h⟩
    · rintro ⟨k1, hk1, h⟩
      rcases List.mem_cons.1 hk1 with rfl | hk2
      · exact Or.inl h
      · exact Or.inr ⟨k1, hk2, h⟩

theorem eq_of_countP_le_one {α : Type} (p : α → Bool) :
    ∀ l : List α, l.countP p ≤ 1 →
      ∀ a ∈ l, ∀ b ∈ l, p a = true → p b = true → a = b := by
  intro l
  induction l with
  | nil => intro _ a ha; simp at ha
  | cons h t ih =>
    intro hc a ha b hb pa pb
    rw [List.countP_cons] at hc
    have hpos : ∀ d ∈ t, p d = true → 0 < t.countP p := by
      intro d hd pd
      rw [List.countP_pos_iff]
      exact ⟨d, hd, pd⟩
    rcases List.mem_cons.1 ha with rfl | ha1
    · rcases List.mem_cons.1 hb with rfl | hb1
      · rfl
      · have := hpos b hb1 pb
        rw [if_pos pa] at hc
        omega
    · rcases List.mem_cons.1 hb with rfl | hb1
      · have := hpos a ha1 pa
        rw [if_pos pb] at hc
        omega
      · exact ih (by omega) a ha1 b hb1 pa pb

/-- Two iterations of one `genloop` with the same destination pixel are the
same iteration. -/
theorem genloop_iter_unique (bits fb_w fb_h : Nat) (bg : image)
    (xstart xend ystart yend : Nat) (a b : Iter)
    (ha : a ∈ genloop bits fb_w fb_h bg xstart xend ystart yend)
    (hb : b ∈ genloop bits fb_w fb_h bg xstart xend ystart yend)
    (hx : a.x = b.x) (hy : a.y = b.y) : a = b := by
  have hv := visits_genloop bits fb_w fb_h bg xstart xend ystart yend b.x b.y
  have hle : visits b.x b.y (genloop bits fb_w fb_h bg xstart xend ystart yend) ≤ 1 := by
    rw [hv]; split_ifs <;> omega
  unfold visits at hle
  exact eq_of_countP_le_one _ _ hle a ha b hb (by simp [hx, hy]) (by simp)

/-- When every callback value is defined, a sequence of calls succeeds; a
canvas cell holds `v` afterwards if every iteration of every call that stores
to the cell stores `v` and either there is such an iteration or the cell held
`v` before. -/
theorem run_calls_get (bits : Nat) (g : canvas_globals) (bg : image) :
    ∀ (calls : List loop_call) (c : Nat → Nat),
      (∀ k ∈ calls, ∀ it ∈ call_iters bits g bg k,
        (apply_blend bits g k.blend it.x it.y it.src).isSome = true) →
      ∃ c1, run_calls bits g bg calls c = some c1
        ∧ ∀ idx v,
          (∀ k ∈ calls, ∀ it ∈ call_iters bits g bg k,
            canvas_index bits g.fb_w it.x it.y = idx →
            apply_blend bits g k.blend it.x it.y it.src = some v) →
          (c idx = v ∨ ∃ k ∈ calls, ∃ it ∈ call_iters bits g bg k,
            canvas_index bits g.fb_w it.x it.y = idx) →
          c1 idx = v := by
  intro calls
  induction calls with
  | nil =>
    intro c _
    refine ⟨c, rfl, ?_⟩
    intro idx v _ h
    rcases h with h | ⟨k, hk, _⟩
    · exact h
    · simp at hk
  | cons k ks ih =>
    intro c hdef
    obtain ⟨c0, hc0, hget0⟩ := store_all_get bits g k.blend (call_iters bits g bg k) c
      (fun it hit => hdef k (List.mem_cons_self _ _) it hit)
    obtain ⟨c1, hc1, hget1⟩ := ih c0 (fun k1 hk1 => hdef k1 (List.mem_cons_of_mem _ hk1))
    refine ⟨c1, ?_, ?_⟩
    · rw [run_calls, hc0]
      exact hc1
    · intro idx v hall hex
      apply hget1 idx v (fun k1 hk1 => hall k1 (List.mem_cons_of_mem _ hk1))
      by_cases hks : ∃ k1 ∈ ks, ∃ it ∈ call_iters bits g bg k1,
          canvas_index bits g.fb_w it.x it.y = idx
      · exact Or.inr hks
      · left
        apply hget0 idx v (fun it hit => hall k (List.mem_cons_self _ _) it hit)
        rcases hex with h | ⟨k1, hk1, it, hit, hi⟩
        · exact Or.inl h
        · rcases List.mem_cons.1 hk1 with rfl | hk2
          · exact Or.inr ⟨it, hit, hi⟩
          · exact absurd ⟨k1, hk2, it, hit, hi⟩ hks

/-- The callback of the call that holds a pixel is that of the pixel's region. -/
theorem call_blend_eq_region (bits W H M G x y : Nat) (hbits : bits = 32 ∨ bits = 64)
    (hW : W < 2 ^ bits) (hH : H < 2 ^ bits) (hG : G ≤ M) (hM : 2 * M < min W H) :
    ∀ k ∈ generate_canvas_calls bits W H M G, in_call k x y = true →
      k.blend = region W H M G x y ∧ (k.blend = .blend_margin → G ≠ 0) := by
  have hMW : 2 * M < W := lt_of_lt_of_le hM (min_le_left _ _)
  have hMH : 2 * M < H := lt_of_lt_of_le hM (min_le_right _ _)
  rw [generate_canvas_calls_eq bits W H M G hbits hW hH hG hM]
  intro k hk hin
  simp only [in_call, Bool.and_eq_true, decide_eq_true_eq] at hin
  unfold region
  by_cases h0 : G = 0
  · simp only [h0, ne_eq, not_true_eq_false, if_false, List.append_nil, List.cons_append,
      List.nil_append, List.mem_cons, List.mem_singleton] at hk
    rcases hk with rfl | rfl | rfl | rfl | rfl | hk
    · simp only at hin ⊢
      rw [if_pos (by omega)]
      exact ⟨rfl, fun h => by simp at h⟩
    · simp only at hin ⊢
      rw [if_pos (by omega)]
      exact ⟨rfl, fun h => by simp at h⟩
    · simp only at hin ⊢
      rw [if_pos (by omega)]
      exact ⟨rfl, fun h => by simp at h⟩
    · simp only at hin ⊢
      rw [if_pos (by omega)]
      exact ⟨rfl, fun h => by simp at h⟩
    · simp only at hin ⊢
      rw [if_neg (by omega), if_pos (by omega)]
      exact ⟨rfl, fun h => by simp at h⟩
    · simp at hk
  · simp only [ne_eq, h0, not_false_eq_true, if_true, List.cons_append,
      List.nil_append, List.mem_cons, List.mem_singleton] at hk
    rcases hk with rfl | rfl | rfl | rfl | rfl | rfl | rfl | rfl | rfl | hk
    · simp only at hin ⊢
      rw [if_pos (by omega)]
      exact ⟨rfl, fun h => by simp at h⟩
    · simp only at hin ⊢
      rw [if_pos (by omega)]
      exact ⟨rfl, fun h => by simp at h⟩
    · simp only at hin ⊢
      rw [if_pos (by omega)]
      exact ⟨rfl, fun h => by simp at h⟩
    · simp only at hin ⊢
      rw [if_pos (by omega)]
      exact ⟨rfl, fun h => by simp at h⟩
    · simp only at hin ⊢
      rw [if_neg (by omega), if_neg (by omega)]
      exact ⟨rfl, fun _ => h0⟩
    · simp only at hin ⊢
      rw [if_neg (by omega), if_neg (by omega)]
      exact ⟨rfl, fun _ => h0⟩
    · simp only at hin ⊢
      rw [if_neg (by omega), if_neg (by omega)]
      exact ⟨rfl, fun _ => h0⟩
    · simp only at hin ⊢
      rw [if_neg (by omega), if_neg (by omega)]
      exact ⟨rfl, fun _ => h0⟩
    · simp only at hin ⊢
      rw [if_neg (by omega), if_pos (by omega)]
      exact ⟨rfl, fun h => by simp at h⟩
    · simp at hk

theorem canvas_cell_inj (W x y x1 y1 : Nat) (hx : x < W) (hx1 : x1 < W)
    (h : W * y + x = W * y1 + x1) : x = x1 ∧ y = y1 := by
  have hW : 0 < W := by omega
  have e1 : (W * y + x) / W = y := by
    rw [Nat.mul_add_div hW, Nat.div_eq_of_lt hx, Nat.add_zero]
  have e2 : (W * y1 + x1) / W = y1 := by
    rw [Nat.mul_add_div hW, Nat.div_eq_of_lt hx1, Nat.add_zero]
  have e3 : y = y1 := by rw [← e1, ← e2, h]
  rw [e3] at h
  exact ⟨by omega, e3⟩

theorem canvas_cell_lt (bits W H x y : Nat) (hWH : W * H < 2 ^ bits) (hx : x < W) (hy : y < H) :
    W * y + x < 2 ^ bits := by
  have h1 : W * (y + 1) ≤ W * H := Nat.mul_le_mul_left _ (by omega)
  rw [Nat.mul_add, Nat.mul_one] at h1
  omega

theorem blend_gradient_isSome (bits fb_w fb_h margin margin_gradient x y bg_px hex : Nat)
    (h : margin_gradient ≠ 0) :
    (blend_gradient_from_box bits fb_w fb_h margin margin_gradient x y bg_px hex).isSome
      = true := by
  unfold blend_gradient_from_box
  simp only
  split_ifs <;> rfl

/-- After `generate_canvas`, the canvas cell of the destination pixel of any
iteration holds the value of the callback of that call on the source value of
the iteration, and the callback is that of the region of the pixel. -/
theorem generate_canvas_cells (bits W H M G default_bg : Nat) (bg : image)
    (fresh : Nat → Nat) (hbits : bits = 32 ∨ bits = 64)
    (hWH : W * H < 2 ^ bits) (hG : G ≤ M) (hM : 2 * M < min W H) :
    ∃ c, generate_canvas bits ⟨W, H, M, G, default_bg⟩ (some bg) fresh = some (some c)
      ∧ ∀ k ∈ generate_canvas_calls bits W H M G,
        ∀ it ∈ call_iters bits ⟨W, H, M, G, default_bg⟩ bg k,
          it.x < W ∧ it.y < H ∧ in_call k it.x it.y = true
          ∧ k.blend = region W H M G it.x it.y
          ∧ apply_blend bits ⟨W, H, M, G, default_bg⟩ k.blend it.x it.y it.src
              = some (c (W * it.y + it.x)) := by
  have hMW : 2 * M < W := lt_of_lt_of_le hM (min_le_left _ _)
  have hMH : 2 * M < H := lt_of_lt_of_le hM (min_le_right _ _)
  have hW : W < 2 ^ bits := by
    have : W * 1 ≤ W * H := Nat.mul_le_mul_left _ (by omega)
    omega
  have hH : H < 2 ^ bits := by
    have : 1 * H ≤ W * H := Nat.mul_le_mul_right _ (by omega)
    omega
  have hin := calls_inside bits W H M G hbits hW hH hG hM
  have hb : ∀ k ∈ generate_canvas_calls bits W H M G,
      ∀ it ∈ call_iters bits ⟨W, H, M, G, default_bg⟩ bg k,
        it.x < W ∧ it.y < H ∧ in_call k it.x it.y = true := by
    intro k hk it hit
    have h1 := mem_genloop_bounds _ _ _ _ _ _ _ _ _ hit
    have h2 := hin k hk
    refine ⟨by omega, by omega, ?_⟩
    simp only [in_call, Bool.and_eq_true, decide_eq_true_eq]
    exact ⟨⟨⟨h1.1, h1.2.1⟩, h1.2.2.1⟩, h1.2.2.2⟩
  have hreg := fun x y => call_blend_eq_region bits W H M G x y hbits hW hH hG hM
  have hdef : ∀ k ∈ generate_canvas_calls bits W H M G,
      ∀ it ∈ call_iters bits ⟨W, H, M, G, default_bg⟩ bg k,
        (apply_blend bits ⟨W, H, M, G, default_bg⟩ k.blend it.x it.y it.src).isSome = true := by
    intro k hk it hit
    have h1 := (hreg it.x it.y k hk (hb k hk it hit).2.2).2
    cases hkb : k.blend with
    | blend_external => rfl
    | blend_internal => rfl
    | blend_margin =>
      simp only [apply_blend]
      exact blend_gradient_isSome _ _ _ _ _ _ _ _ _ (h1 hkb)
  obtain ⟨c, hc, hget⟩ := run_calls_get bits ⟨W, H, M, G, default_bg⟩ bg
    (generate_canvas_calls bits W H M G) fresh hdef
  refine ⟨c, ?_, ?_⟩
  · simp only [generate_canvas, hc]
  · intro k hk it hit
    obtain ⟨hx, hy, hink⟩ := hb k hk it hit
    refine ⟨hx, hy, hink, (hreg it.x it.y k hk hink).1, ?_⟩
    obtain ⟨v, hv⟩ := Option.isSome_iff_exists.1 (hdef k hk it hit)
    rw [hv]
    congr 1
    symm
    apply hget (W * it.y + it.x) v
    · intro k1 hk1 it1 hit1 hidx
      obtain ⟨hx1, hy1, hink1⟩ := hb k1 hk1 it1 hit1
      have hidx1 : canvas_index bits W it1.x it1.y = W * it1.y + it1.x :=
        canvas_index_eq _ _ _ _ (canvas_cell_lt bits W H _ _ hWH hx1 hy1)
      rw [hidx1] at hidx
      obtain ⟨ex, ey⟩ := canvas_cell_inj W _ _ _ _ hx1 hx hidx
      rw [ex, ey] at hink1
      have hone := countP_calls_eq_one bits W H M G it.x it.y hbits hW hH hG hM hx hy
      have hk : k1 = k := eq_of_countP_le_one (fun c => in_call c it.x it.y) _ (by omega)
        k1 hk1 k hk hink1 hink
      subst hk
      have hit_eq : it1 = it := genloop_iter_unique _ _ _ _ _ _ _ _ _ _ hit1 hit ex ey
      rw [hit_eq]
      exact hv
    · right
      exact ⟨k, hk, it, hit, canvas_index_eq _ _ _ _ (canvas_cell_lt bits W H _ _ hWH hx hy)⟩

/-! ## C15: the content of the canvas by region -/

/-- C15: for every image, theme background `default_bg` and `W`, `H`, `M`, `G`
with `0 ≤ G ≤ M` and `2 * M < min W H` (canvas size representable),
`generate_canvas` returns a canvas, and every pixel `(x, y)` of the grid has
exactly one iteration of `genloop`, whose source value `src` is the layout's
source pixel for `(x, y)`; the cell `canvas[y * W + x]` holds `src` unmodified
when the pixel is in the outer strips, `colour_blend(default_bg, src)` when it
is in the inner rectangle, and `blend_gradient_from_box(x, y, src, default_bg)`
when it is in the gradient band. -/
theorem generate_canvas_regions (bits W H M G default_bg : Nat) (bg : image)
    (fresh : Nat → Nat) (hbits : bits = 32 ∨ bits = 64)
    (hWH : W * H < 2 ^ bits) (hG : G ≤ M) (hM : 2 * M < min W H) :
    ∃ c, generate_canvas bits ⟨W, H, M, G, default_bg⟩ (some bg) fresh = some (some c)
      ∧ ∀ x y, x < W → y < H →
        ∃ it ∈ run_iters bits ⟨W, H, M, G, default_bg⟩ bg (generate_canvas_calls bits W H M G),
          it.x = x ∧ it.y = y
          ∧ visits x y (run_iters bits ⟨W, H, M, G, default_bg⟩ bg
              (generate_canvas_calls bits W H M G)) = 1
          ∧ ((x < M - G ∨ W - (M - G) ≤ x ∨ y < M - G ∨ H - (M - G) ≤ y) →
              c (y * W + x) = it.src)
          ∧ ((M ≤ x ∧ x < W - M ∧ M ≤ y ∧ y < H - M) →
              c (y * W + x) = colour_blend default_bg it.src)
          ∧ (¬ (x < M - G ∨ W - (M - G) ≤ x ∨ y < M - G ∨ H - (M - G) ≤ y) →
              ¬ (M ≤ x ∧ x < W - M ∧ M ≤ y ∧ y < H - M) →
              blend_gradient_from_box bits W H M G x y it.src default_bg
                = some (c (y * W + x))) := by
  have hW : W < 2 ^ bits := by
    have hMW : 2 * M < W := lt_of_lt_of_le hM (min_le_left _ _)
    have hMH : 2 * M < H := lt_of_lt_of_le hM (min_le_right _ _)
    have : W * 1 ≤ W * H := Nat.mul_le_mul_left _ (by omega)
    omega
  have hH : H < 2 ^ bits := by
    have hMW : 2 * M < W := lt_of_lt_of_le hM (min_le_left _ _)
    have : 1 * H ≤ W * H := Nat.mul_le_mul_right _ (by omega)
    omega
  obtain ⟨c, hc, hcells⟩ := generate_canvas_cells bits W H M G default_bg bg fresh hbits hWH hG hM
  refine ⟨c, hc, ?_⟩
  intro x y hx hy
  have hv : visits x y (run_iters bits ⟨W, H, M, G, default_bg⟩ bg
      (generate_canvas_calls bits W H M G)) = 1 := by
    rw [visits_run_iters]
    exact countP_calls_eq_one bits W H M G x y hbits hW hH hG hM hx hy
  obtain ⟨it, hit, hitx, hity⟩ := mem_of_visits_pos x y _ (by rw [hv]; exact Nat.one_pos)
  obtain ⟨k, hk, hitk⟩ := (mem_run_iters _ _ _ _ _).1 hit
  obtain ⟨-, -, -, hreg, hval⟩ := hcells k hk it hitk
  rw [hitx, hity] at hreg hval
  rw [Nat.mul_comm W y] at hval
  refine ⟨it, hit, hitx, hity, hv, ?_, ?_, ?_⟩
  · intro hout
    unfold region at hreg
    rw [if_pos hout] at hreg
    rw [hreg] at hval
    exact (Option.some.inj hval).symm
  · intro hinner
    have hnout : ¬ (x < M - G ∨ W - (M - G) ≤ x ∨ y < M - G ∨ H - (M - G) ≤ y) := by omega
    unfold region at hreg
    rw [if_neg hnout, if_pos hinner] at hreg
    rw [hreg] at hval
    exact (Option.some.inj hval).symm
  · intro hnout hninner
    unfold region at hreg
    rw [if_neg hnout, if_neg hninner] at hreg
    rw [hreg] at hval
    exact hval

theorem generate_canvas_regions_witness :
    (64 = 32 ∨ 64 = 64) ∧ 8 * 8 < 2 ^ 64 ∧ 1 ≤ 2 ∧ 2 * 2 < min 8 8
    ∧ ∃ c, generate_canvas 64 ⟨8, 8, 2, 1, 0x80000000⟩ (some center2) (fun _ => 0)
        = some (some c)
      ∧ ∀ x y, x < 8 → y < 8 →
        ∃ it ∈ run_iters 64 ⟨8, 8, 2, 1, 0x80000000⟩ center2 (generate_canvas_calls 64 8 8 2 1),
          it.x = x ∧ it.y = y
          ∧ visits x y (run_iters 64 ⟨8, 8, 2, 1, 0x80000000⟩ center2
              (generate_canvas_calls 64 8 8 2 1)) = 1
          ∧ ((x < 2 - 1 ∨ 8 - (2 - 1) ≤ x ∨ y < 2 - 1 ∨ 8 - (2 - 1) ≤ y) →
              c (y * 8 + x) = it.src)
          ∧ ((2 ≤ x ∧ x < 8 - 2 ∧ 2 ≤ y ∧ y < 8 - 2) →
              c (y * 8 + x) = colour_blend 0x80000000 it.src)
          ∧ (¬ (x < 2 - 1 ∨ 8 - (2 - 1) ≤ x ∨ y < 2 - 1 ∨ 8 - (2 - 1) ≤ y) →
              ¬ (2 ≤ x ∧ x < 8 - 2 ∧ 2 ≤ y ∧ y < 8 - 2) →
              blend_gradient_from_box 64 8 8 2 1 x y it.src 0x80000000
                = some (c (y * 8 + x))) :=
  ⟨Or.inr rfl, by decide, by decide, by decide,
    generate_canvas_regions 64 8 8 2 1 0x80000000 center2 (fun _ => 0) (Or.inr rfl)
      (by decide) (by decide) (by decide)⟩

/-! ## C13: the period of the tiled layout -/

theorem mem_tiled_inner (bits : Nat) (bg : image) (y row off : Nat) (it : Iter)
    (hiw : bg.img_width < 2 ^ bits) :
    ∀ (n x0 image_x : Nat), image_x ≤ bg.img_width →
      it ∈ tiled_inner bits bg y row off n x0 image_x →
      x0 ≤ it.x ∧ it.y = y
      ∧ it.read = some ((image_x + (it.x - x0)) % (bg.img_width + 1), row)
      ∧ it.src = image_read bits bg ((image_x + (it.x - x0)) % (bg.img_width + 1)) off := by
  intro n
  induction n with
  | zero => intro x0 image_x _ h; simp [tiled_inner] at h
  | succ n ih =>
    intro x0 image_x hle h
    rw [tiled_inner, List.mem_cons] at h
    rcases h with h | h
    · subst h
      have e : (image_x + (x0 - x0)) % (bg.img_width + 1) = image_x := by
        rw [Nat.sub_self, Nat.add_zero, Nat.mod_eq_of_lt (by omega)]
      refine ⟨le_refl _, rfl, ?_, ?_⟩
      · show some (image_x, row) = some ((image_x + (x0 - x0)) % (bg.img_width + 1), row)
        rw [e]
      · show image_read bits bg image_x off
          = image_read bits bg ((image_x + (x0 - x0)) % (bg.img_width + 1)) off
        rw [e]
    · by_cases heq : image_x = bg.img_width
      · rw [if_pos heq] at h
        obtain ⟨h1, h2, h3, h4⟩ := ih (x0 + 1) 0 (by omega) h
        have e : (0 + (it.x - (x0 + 1))) % (bg.img_width + 1)
            = (image_x + (it.x - x0)) % (bg.img_width + 1) := by
          have : image_x + (it.x - x0) = (it.x - (x0 + 1)) + (bg.img_width + 1) := by omega
          rw [this, Nat.add_mod_right, Nat.zero_add]
        rw [e] at h3 h4
        exact ⟨by omega, h2, h3, h4⟩
      · rw [if_neg heq, wrap_eq _ _ (by omega)] at h
        obtain ⟨h1, h2, h3, h4⟩ := ih (x0 + 1) (image_x + 1) (by omega) h
        have e : image_x + 1 + (it.x - (x0 + 1)) = image_x + (it.x - x0) := by omega
        rw [e] at h3 h4
        exact ⟨by omega, h2, h3, h4⟩

/-- In the tiled layout the running column index has the period
`img_width + 1`: the iteration of the destination pixel `x` of a row that
starts at `xstart = 0` reads the column `x mod (img_width + 1)`. -/
theorem mem_genloop_tiled (bits fb_w fb_h : Nat) (bg : image) (xend ystart yend : Nat)
    (htype : bg.type = .IMAGE_TILED) (hiw : bg.img_width < 2 ^ bits) (it : Iter)
    (h : it ∈ genloop bits fb_w fb_h bg 0 xend ystart yend) :
    it.read = some (it.x % (bg.img_width + 1),
        subw bits (subw bits bg.img_height 1) (it.y % bg.img_height))
    ∧ it.src = image_read bits bg (it.x % (bg.img_width + 1))
        (wrap bits (bg.pitch * subw bits (subw bits bg.img_height 1) (it.y % bg.img_height))) := by
  unfold genloop at h
  rw [htype] at h
  simp only at h
  obtain ⟨y, -, -, hy⟩ := mem_for_rows _ _ _ _ h
  unfold tiled_row at hy
  simp only [Nat.zero_mod] at hy
  obtain ⟨-, h2, h3, h4⟩ := mem_tiled_inner bits bg _ _ _ it hiw _ _ _ (Nat.zero_le _) hy
  rw [Nat.zero_add, Nat.sub_zero] at h3 h4
  subst h2
  exact ⟨h3, h4⟩

theorem call_xstart_of_no_margin (bits W H x y : Nat) (hbits : bits = 32 ∨ bits = 64)
    (hW : W < 2 ^ bits) (hH : H < 2 ^ bits) (hM : 2 * 0 < min W H) :
    ∀ k ∈ generate_canvas_calls bits W H 0 0, in_call k x y = true →
      k.xstart = 0 ∧ k.blend = .blend_internal := by
  rw [generate_canvas_calls_eq bits W H 0 0 hbits hW hH (le_refl _) hM]
  intro k hk hin
  simp only [in_call, Bool.and_eq_true, decide_eq_true_eq] at hin
  simp only [ne_eq, not_true_eq_false, if_false, List.append_nil, List.cons_append,
    List.nil_append, List.mem_cons, List.mem_singleton] at hk
  rcases hk with rfl | rfl | rfl | rfl | rfl | hk
  · simp only at hin; omega
  · simp only at hin; omega
  · simp only at hin; omega
  · simp only at hin; omega
  · exact ⟨rfl, rfl⟩
  · simp at hk

/-- The canvas built from a tiled image with margin 0 and gradient 0: the cell
of the pixel `(x, y)` is the blend of `default_bg` over the image value read at
column `x mod (img_width + 1)` of the stored row
`img_height - 1 - y mod img_height`. -/
theorem tiled_canvas_cell (bits W H default_bg : Nat) (bg : image) (fresh : Nat → Nat)
    (hbits : bits = 32 ∨ bits = 64) (hWH : W * H < 2 ^ bits) (hpos : 0 < min W H)
    (htype : bg.type = .IMAGE_TILED) (hiw : bg.img_width < 2 ^ bits) :
    ∃ c, generate_canvas bits ⟨W, H, 0, 0, default_bg⟩ (some bg) fresh = some (some c)
      ∧ ∀ x y, x < W → y < H →
        c (W * y + x) = colour_blend default_bg
          (image_read bits bg (x % (bg.img_width + 1))
            (wrap bits (bg.pitch
              * subw bits (subw bits bg.img_height 1) (y % bg.img_height)))) := by
  have hM : 2 * 0 < min W H := by omega
  have hW0 : 0 < W := lt_of_lt_of_le hpos (min_le_left _ _)
  have hH0 : 0 < H := lt_of_lt_of_le hpos (min_le_right _ _)
  have hW : W < 2 ^ bits := by
    have : W * 1 ≤ W * H := Nat.mul_le_mul_left _ (by omega)
    omega
  have hH : H < 2 ^ bits := by
    have : 1 * H ≤ W * H := Nat.mul_le_mul_right _ (by omega)
    omega
  obtain ⟨c, hc, hcells⟩ := generate_canvas_cells bits W H 0 0 default_bg bg fresh hbits hWH
    (le_refl _) hM
  refine ⟨c, hc, ?_⟩
  intro x y hx hy
  have hv : visits x y (run_iters bits ⟨W, H, 0, 0, default_bg⟩ bg
      (generate_canvas_calls bits W H 0 0)) = 1 := by
    rw [visits_run_iters]
    exact countP_calls_eq_one bits W H 0 0 x y hbits hW hH (le_refl _) hM hx hy
  obtain ⟨it, hit, hitx, hity⟩ := mem_of_visits_pos x y _ (by rw [hv]; exact Nat.one_pos)
  obtain ⟨k, hk, hitk⟩ := (mem_run_iters _ _ _ _ _).1 hit
  obtain ⟨-, -, hink, -, hval⟩ := hcells k hk it hitk
  obtain ⟨hxs, hkb⟩ := call_xstart_of_no_margin bits W H it.x it.y hbits hW hH hM k hk hink
  unfold call_iters at hitk
  rw [hxs] at hitk
  obtain ⟨-, hsrc⟩ := mem_genloop_tiled bits W H bg _ _ _ htype hiw it hitk
  rw [hkb] at hval
  simp only [apply_blend] at hval
  rw [hitx, hity] at hval hsrc
  rw [← Option.some.inj hval, hsrc]

/-- C13 (defect of the code): on an 800 x 600 canvas built from the tiled
16 x 16 checkerboard `checker16` with margin 0, gradient 0 and
`default_bg = 0x80000000`, the pixel `(17, 1)` holds `0x00808080` and the pixel
`(1, 1)` holds `0x00000000`: the columns read are `17 mod 17 = 0` and
`1 mod 17 = 1`, because the running index of line 98 has the period
`img_width + 1`. -/
theorem tiled_canvas_not_periodic :
    ∃ c, generate_canvas 64 ⟨800, 600, 0, 0, 0x80000000⟩ (some checker16) (fun _ => 0)
        = some (some c)
      ∧ c (800 * 1 + 17) = 0x00808080 ∧ c (800 * 1 + 1) = 0x00000000
      ∧ 1 + checker16.img_width = 17 ∧ 17 < 800 ∧ 1 < 600 := by
  obtain ⟨c, hc, hcell⟩ := tiled_canvas_cell 64 800 600 0x80000000 checker16 (fun _ => 0)
    (Or.inr rfl) (by decide) (by decide) rfl (by decide)
  refine ⟨c, hc, ?_, ?_, by decide, by decide, by decide⟩
  · rw [hcell 17 1 (by decide) (by decide)]
    decide
  · rw [hcell 1 1 (by decide) (by decide)]
    decide

end Gterm
